import Mathlib

/-!
Verification development for the content-graph core of a personal site:
the build-time generator (`generate-content-map.mjs`: `slugifyTitle`,
`buildIndices`, `resolveWikiLinkTarget`, `loadContentNodes`' id-collision
handling, `buildGraph`) and the render-time inline transformer
(`remark-wiki-link.js`: `sanitizeSlug`, `buildContentIndex`,
`resolveTitleToEntry`, `buildUrlForEntry`, `buildDisplayText`).

Modelling conventions:
* JavaScript strings are Lean `String`s (lists of characters); the regex
  pipelines are written as structurally recursive character-list
  transformations so that they compute by `rfl`/`decide`.
* `String.prototype.toLowerCase` is modelled per-character with
  `Char.toLower` (they agree on the basic-latin range exercised here),
  and the `\s` character class with `Char.isWhitespace`.
* `localeCompare` is modelled as code-point string comparison.
* JavaScript `Map`s and `Set`s are insertion-ordered association lists
  and insertion-ordered duplicate-free lists, matching iteration order.
* The side-effecting diagnostic pushes are made explicit: resolution
  returns its diagnostic message alongside its result, and the callers
  thread the accumulators that the source mutates in place.
-/

namespace ContentCore

/-- Characters kept by both normalizers: the class `[a-z0-9-]`. -/
def isAllowedChar (c : Char) : Bool :=
  (decide ('a' ≤ c) && decide (c ≤ 'z')) ||
  (decide ('0' ≤ c) && decide (c ≤ '9')) ||
  (c == '-')

/-- `String.prototype.toLowerCase`, modelled per character. -/
def lowerStr (s : String) : String :=
  ⟨s.data.map Char.toLower⟩

/-- Replace every run of whitespace by a single `'-'`:
the step `.replace(/\s+/g, "-")` shared by both normalizers. -/
def collapseWsToHyphen : List Char → List Char
  | [] => []
  | [c] => if c.isWhitespace then ['-'] else [c]
  | c :: c' :: cs =>
    if c.isWhitespace && c'.isWhitespace then collapseWsToHyphen (c' :: cs)
    else (if c.isWhitespace then '-' else c) :: collapseWsToHyphen (c' :: cs)

/-- Replace every character outside `[a-z0-9-]` by `'-'`:
the generator's step `.replace(/[^a-z0-9-]/g, "-")`. -/
def replaceDisallowed (l : List Char) : List Char :=
  l.map (fun c => if isAllowedChar c then c else '-')

/-- Remove every character outside `[a-z0-9-]`:
the transformer's step `.replace(/[^a-z0-9-]/g, '')`. -/
def stripDisallowed (l : List Char) : List Char :=
  l.filter (fun c => isAllowedChar c)

/-- Collapse every run of hyphens to a single hyphen: the generator's
step `.replace(hyphen-run, "-")` and the transformer's step
`.replace(two-or-more-hyphens, '-')` (which agree, since a length-one
run is rewritten to itself by the former). -/
def collapseHyphens : List Char → List Char
  | [] => []
  | [c] => [c]
  | c :: c' :: cs =>
    if c == '-' && c' == '-' then collapseHyphens (c' :: cs)
    else c :: collapseHyphens (c' :: cs)

/-- Delete one leading hyphen (the `^-` alternative of the generator's
trim step `.replace(/^-|-$/g, "")`). -/
def trimLeadHyphen (l : List Char) : List Char :=
  if l.head? = some '-' then l.tail else l

/-- The generator's trim step `.replace(/^-|-$/g, "")`: it deletes one
leading hyphen (anchor `^`) and one trailing hyphen (anchor `$`). -/
def trimOneHyphen (l : List Char) : List Char :=
  let l1 := trimLeadHyphen l
  if l1.getLast? = some '-' then l1.dropLast else l1

/-- Drop every leading and trailing character satisfying `p`; used for
the transformer's trim step `.replace(/^-+|-+$/g, '')` and for
`String.prototype.trim`. -/
def dropAround (p : Char → Bool) (l : List Char) : List Char :=
  ((l.dropWhile p).reverse.dropWhile p).reverse

/-- `String.prototype.trim`, with `\s` modelled as `Char.isWhitespace`. -/
def jsTrim (s : String) : String :=
  ⟨dropAround (fun c => c.isWhitespace) s.data⟩

/-- The generator's normalizer (`slugifyTitle` in
`generate-content-map.mjs`): lowercase; whitespace runs to `'-'`;
characters outside `[a-z0-9-]` REPLACED by `'-'`; hyphen runs
collapsed; one leading and one trailing hyphen trimmed. -/
def slugifyTitle (s : String) : String :=
  ⟨trimOneHyphen (collapseHyphens (replaceDisallowed
      (collapseWsToHyphen (lowerStr s).data)))⟩

/-- The transformer's normalizer (`sanitizeSlug` in
`remark-wiki-link.js`): lowercase; whitespace runs to `'-'`; characters
outside `[a-z0-9-]` REMOVED; hyphen runs collapsed; leading and
trailing hyphen runs trimmed. -/
def sanitizeSlug (s : String) : String :=
  ⟨dropAround (fun c => c == '-') (collapseHyphens (stripDisallowed
      (collapseWsToHyphen (lowerStr s).data)))⟩

/-- `slugifyHeading` in `remark-wiki-link.js` delegates to `sanitizeSlug`. -/
def slugifyHeading (s : String) : String :=
  sanitizeSlug s

end ContentCore

namespace ContentCore

/-- The shape invariant produced by hyphen collapapsing: no two adjacent
hyphens. -/
def noTwoHyphens (a b : Char) : Prop := ¬(a = '-' ∧ b = '-')

end ContentCore

-- ===================================================================
-- The inline markdown transformer (remark-wiki-link.js)
-- ===================================================================

namespace ContentCore

/-- A record of the serialized node list (`content-map.json`) as read by
the inline transformer; fields the transformer never inspects
(description, tags, aliases, link arrays) are omitted. -/
structure Entry where
  id : String
  cuid : Option String
  slug : String
  collection : String
  title : String
deriving DecidableEq, Repr

/-- Insertion-ordered association list standing in for a JS `Map` whose
values are entries; `get` returns the value of the first (and only)
binding of a key. -/
def mapGetE (m : List (String × Entry)) (k : String) : Option Entry :=
  (m.find? (fun p => p.1 = k)).map (fun p => p.2)

/-- `if (key && !map.has(key)) map.set(key, entry)` — the guarded
insertion used by `buildContentIndex` (first entry with a key wins). -/
def insertIfAbsent (m : List (String × Entry)) (k : String) (e : Entry) :
    List (String × Entry) :=
  if k ≠ "" ∧ (m.find? (fun p => p.1 = k)).isNone then m ++ [(k, e)] else m

/-- The three lookup maps built by `buildContentIndex`. -/
structure ContentIndex where
  byTitle : List (String × Entry)
  bySlugKey : List (String × Entry)
  byIdKey : List (String × Entry)
deriving Repr

/-- `buildContentIndex` in `remark-wiki-link.js`: one pass over the
serialized node list, filling `byTitle` (trimmed lowercased title),
`bySlugKey` (`sanitizeSlug(entry.slug || entry.id)`) and `byIdKey`
(`sanitizeSlug(entry.id)`); each map keeps the first entry per key.
`indexEntryStep` is its loop body. -/
def indexEntryStep (idx : ContentIndex) (entry : Entry) : ContentIndex :=
  let titleKey := lowerStr (jsTrim entry.title)
  let slugKey := sanitizeSlug (if entry.slug = "" then entry.id else entry.slug)
  let idKey := sanitizeSlug entry.id
  { byTitle := insertIfAbsent idx.byTitle titleKey entry
    bySlugKey := insertIfAbsent idx.bySlugKey slugKey entry
    byIdKey := insertIfAbsent idx.byIdKey idKey entry }

def buildContentIndex (nodes : List Entry) : ContentIndex :=
  nodes.foldl indexEntryStep ⟨[], [], []⟩

/-- `resolveTitleToEntry` in `remark-wiki-link.js`: exact
(trimmed, lowercased) title match, then slugified-title match against
`bySlugKey`, then against `byIdKey`; the index is passed explicitly
where the source reads the module-level `CONTENT_INDEX`. -/
def resolveTitleToEntry (idx : ContentIndex) (title : String) : Option Entry :=
  if title = "" then none
  else
    let normalizedTitle := lowerStr (jsTrim title)
    match mapGetE idx.byTitle normalizedTitle with
    | some e => some e
    | none =>
      let titleSlug := sanitizeSlug title
      match mapGetE idx.bySlugKey titleSlug with
      | some e => some e
      | none => mapGetE idx.byIdKey titleSlug

/-- Result of `parseWikiLinkBody`. -/
structure ParsedWikiLink where
  title : String
  header : Option String
  alias' : Option String
deriving DecidableEq, Repr

/-- JavaScript `s.split(sep, 2)`: the text before the first separator,
and — when a separator occurs — the text between the first and second
separators (`none` when the separator does not occur). -/
def splitLimit2 (sep : Char) (s : String) : String × Option String :=
  let before := s.data.takeWhile (fun c => c ≠ sep)
  match s.data.dropWhile (fun c => c ≠ sep) with
  | [] => (⟨before⟩, none)
  | _ :: r => (⟨before⟩, some ⟨r.takeWhile (fun c => c ≠ sep)⟩)

/-- The `part ? part.trim() || null : null` idiom of
`parseWikiLinkBody`: a missing or falsy part, or a part that trims to
the empty string, becomes `null`; otherwise the trimmed part is kept. -/
def trimOrNone (o : Option String) : Option String :=
  match o with
  | some x => if x = "" then none else if jsTrim x = "" then none else some (jsTrim x)
  | none => none

/-- `parseWikiLinkBody` in `remark-wiki-link.js`: split the inner text
on the first `|` into target and alias, then the target on the first
`#` into title and header; alias/header are trimmed and empty results
become `null`. -/
def parseWikiLinkBody (body : String) : ParsedWikiLink :=
  let (targetPart, aliasPart) := splitLimit2 '|' body
  let alias' := trimOrNone aliasPart
  let (rawTitle, rawHeader) := splitLimit2 '#' targetPart
  let title := jsTrim rawTitle
  let header := trimOrNone rawHeader
  ⟨title, header, alias'⟩

/-- `buildUrlForEntry` in `remark-wiki-link.js`: the base path
`/collection/slug/` plus a slugified-heading fragment when the header
is present and its slug is nonempty. -/
def buildUrlForEntry (entry : Entry) (header : Option String) : String :=
  let base := "/" ++ entry.collection ++ "/" ++ entry.slug ++ "/"
  match header with
  | none => base
  | some h =>
    if h = "" then base
    else
      let fragment := slugifyHeading h
      if fragment = "" then base else base ++ "#" ++ fragment

/-- The alias-then-header fallback of `buildDisplayText`. -/
def buildDisplayTextNoAlias (p : ParsedWikiLink) : String :=
  match p.header with
  | some h => if h ≠ "" ∧ jsTrim h ≠ "" then jsTrim h else p.title
  | none => p.title

/-- `buildDisplayText` in `remark-wiki-link.js`: alias when given
(trimmed, nonempty), else header when given, else the title. -/
def buildDisplayText (p : ParsedWikiLink) : String :=
  match p.alias' with
  | some a => if a ≠ "" ∧ jsTrim a ≠ "" then jsTrim a else buildDisplayTextNoAlias p
  | none => buildDisplayTextNoAlias p

/-- The node a single wiki-link mention is rewritten into by the
transform loop of `remarkWikiLink`: untouched bracketed text when the
parsed title is empty, a non-navigating missing-link element when
resolution fails, or a navigating link with the built URL and display
text. -/
inductive WikiOut where
  | plain (text : String)
  | missing (text : String)
  | nav (url : String) (text : String)
deriving DecidableEq, Repr

/-- The per-mention body of the scan loop in `remarkWikiLink`'s
`transform` (the part that turns one matched `[[inner]]` into an output
node). -/
def renderMention (idx : ContentIndex) (inner : String) : WikiOut :=
  let parsed := parseWikiLinkBody inner
  if parsed.title = "" then WikiOut.plain ("[[" ++ inner ++ "]]")
  else
    match resolveTitleToEntry idx parsed.title with
    | none => WikiOut.missing (buildDisplayText parsed)
    | some entry =>
      WikiOut.nav (buildUrlForEntry entry parsed.header) (buildDisplayText parsed)

end ContentCore

-- ===================================================================
-- The build-time generator (generate-content-map.mjs)
-- ===================================================================

namespace ContentCore

/-- A raw (unresolved) wiki-link mention collected during load. -/
structure RawLink where
  targetTitle : String
  origin : String
deriving DecidableEq, Repr

/-- A lightweight edge reference pushed into a node's link arrays. -/
structure LinkRef where
  id : String
  cuid : Option String
  title : String
  slug : String
  collection : String
  kind : String
deriving DecidableEq, Repr

/-- `NodeInternal` of `generate-content-map.mjs`. -/
structure NodeInternal where
  id : String
  cuid : Option String
  slug : String
  collection : String
  title : String
  description : String
  tags : List String
  aliases : List String
  rawLinks : List RawLink
  outboundLinks : List LinkRef
  inboundLinks : List LinkRef
  chainedLinks : List LinkRef
  filePath : String
deriving DecidableEq, Repr

/-- An id-collision record pushed into `contentHealth.idCollisions`. -/
structure Collision where
  id : String
  existingFile : String
  duplicateFile : String
deriving DecidableEq, Repr

/-- `nodesById.get(i)` over the insertion-ordered node list standing in
for the generator's `Map` keyed by node id. -/
def getNode (nodes : List NodeInternal) (i : String) : Option NodeInternal :=
  nodes.find? (fun n => n.id = i)

/-- The id-collision handling at the end of `loadContentNodes`'s
per-file loop: if the id is taken, record the collision (with the
existing file's path and the new file's path) and drop the new node;
otherwise register it. -/
def registerNode (acc : List NodeInternal × List Collision)
    (node : NodeInternal) : List NodeInternal × List Collision :=
  match getNode acc.1 node.id with
  | some existing =>
    (acc.1, acc.2 ++ [⟨node.id, existing.filePath, node.filePath⟩])
  | none => (acc.1 ++ [node], acc.2)

/-- The registration loop of `loadContentNodes`, applied to the nodes
built from the discovered files in discovery order (file reading,
front-matter parsing and field extraction happen before this point and
are not modelled; their results are the input nodes). -/
def loadNodeRegistry (nodes : List NodeInternal) :
    List NodeInternal × List Collision :=
  nodes.foldl registerNode ([], [])

/-- Insertion-ordered multimap standing in for the generator's
`Map<string, Set<string>>` indices. -/
def mapGetIds (m : List (String × List String)) (k : String) :
    Option (List String) :=
  (m.find? (fun p => p.1 = k)).map (fun p => p.2)

/-- The `add` helper of `buildIndices`: skip empty keys, create the set
on first use, and add the id if the set does not contain it yet. -/
def addIdx (m : List (String × List String)) (key id : String) :
    List (String × List String) :=
  if key = "" then m
  else if (m.find? (fun p => p.1 = key)).isSome then
    m.map (fun p => if p.1 = key then (p.1, if id ∈ p.2 then p.2 else p.2 ++ [id]) else p)
  else m ++ [(key, [id])]

/-- The generator's resolution indices. -/
structure Indices where
  titleIndex : List (String × List String)
  slugIndex : List (String × List String)
deriving Repr

/-- `buildIndices` in `generate-content-map.mjs`: for every node, index
its exact title and lowercased title in `titleIndex`, and its
slugified title and slugified stored slug in `slugIndex`.
`indexNodeStep` is its loop body. -/
def indexNodeStep (idx : Indices) (node : NodeInternal) : Indices :=
  let t := node.title
  let tl := lowerStr t
  { titleIndex := addIdx (addIdx idx.titleIndex t node.id) tl node.id
    slugIndex :=
      addIdx (addIdx idx.slugIndex (slugifyTitle t) node.id)
        (slugifyTitle node.slug) node.id }

def buildIndices (nodes : List NodeInternal) : Indices :=
  nodes.foldl indexNodeStep ⟨[], []⟩

/-- `resolveWikiLinkTarget` in `generate-content-map.mjs`, with the
side channel made explicit: the first component is the returned node id
(or `none`), the second is the message the function passes to `warn`
(at most one per call, and only on a `null` return). Exact-title lookup
falls back from the raw title to the lowercased title; a singleton
index set resolves, a larger one is ambiguous; then the slugified
lookup does the same; otherwise the link is unresolved. -/
def resolveWikiLinkTarget (rawTitle : String) (idx : Indices) :
    Option String × Option String :=
  let lower := lowerStr rawTitle
  let exact := (mapGetIds idx.titleIndex rawTitle).orElse
    (fun _ => mapGetIds idx.titleIndex lower)
  match exact with
  | some (i :: rest) =>
    if rest.isEmpty then (some i, none)
    else
      (none, some ("Ambiguous link \"" ++ rawTitle ++ "\" → " ++
        String.intercalate ", " (i :: rest)))
  | _ =>
    let slugged := slugifyTitle rawTitle
    match mapGetIds idx.slugIndex slugged with
    | some (i :: rest) =>
      if rest.isEmpty then (some i, none)
      else
        (none, some ("Ambiguous slug \"" ++ rawTitle ++ "\" (→ " ++ slugged ++
          ") → " ++ String.intercalate ", " (i :: rest)))
    | _ => (none, some ("Unresolved wiki-link \"" ++ rawTitle ++ "\""))

/-- A resolved edge (`edges` array of `buildGraph`). -/
structure Edge where
  fromId : String
  toId : String
  origin : String
deriving DecidableEq, Repr

/-- The accumulator threaded through `buildGraph`'s resolution loop:
the edge list, the `warningTracker` set, and
`contentHealth.unresolvedWikiLinks`. -/
structure ResolveState where
  edges : List Edge
  warningTracker : List String
  unresolvedWikiLinks : List String
deriving DecidableEq, Repr

/-- The edges contributed by one raw link mention of node `fromId`:
one edge when resolution succeeds with a non-self target, none
otherwise (used to state what the resolution loop appends). -/
def edgeContrib (idx : Indices) (fromId : String) (raw : RawLink) : List Edge :=
  match (resolveWikiLinkTarget raw.targetTitle idx).1 with
  | some toId => if toId = fromId then [] else [⟨fromId, toId, raw.origin⟩]
  | none => []

/-- The `warn` closure of `buildGraph`'s resolution loop: a message is
pushed on `unresolvedWikiLinks` only when `warningTracker` has not seen
it, and is then remembered in the tracker. -/
def warnStep (st : ResolveState) (w : Option String) : ResolveState :=
  match w with
  | some msg =>
    if msg ∈ st.warningTracker then st
    else { st with
      warningTracker := st.warningTracker ++ [msg]
      unresolvedWikiLinks := st.unresolvedWikiLinks ++ [msg] }
  | none => st

/-- The edge push of `buildGraph`'s resolution loop: a resolved,
non-self target appends one edge. -/
def edgeStep (fromId origin : String) (st : ResolveState)
    (r : Option String) : ResolveState :=
  match r with
  | none => st
  | some toId =>
    if toId = fromId then st
    else { st with edges := st.edges ++ [⟨fromId, toId, origin⟩] }

/-- One iteration of `buildGraph`'s inner loop: resolve a raw link from
node `fromId`; a produced warning is recorded once (via `warnStep`,
which happens inside the resolver in the source); a resolved, non-self
target appends an edge. -/
def resolveStep (idx : Indices) (fromId : String) (st : ResolveState)
    (raw : RawLink) : ResolveState :=
  let r := resolveWikiLinkTarget raw.targetTitle idx
  edgeStep fromId raw.origin (warnStep st r.2) r.1

/-- The full resolution loop of `buildGraph` (over nodes, then over
each node's raw links), starting from empty accumulators. -/
def resolveAllEdges (idx : Indices) (nodes : List NodeInternal) : ResolveState :=
  nodes.foldl (fun st node => node.rawLinks.foldl (resolveStep idx node.id) st)
    ⟨[], [], []⟩

/-- The reset step of `buildGraph`: empty every node's link arrays
before repopulating. -/
def resetLinks (nodes : List NodeInternal) : List NodeInternal :=
  nodes.map (fun n =>
    { n with outboundLinks := [], inboundLinks := [], chainedLinks := [] })

/-- `toRef` in `buildGraph`: project the node with the given id to a
link reference carrying the edge's origin as `kind`. -/
def toRef (nodes : List NodeInternal) (i : String) (kind : String) :
    Option LinkRef :=
  (getNode nodes i).map (fun n => ⟨n.id, n.cuid, n.title, n.slug, n.collection, kind⟩)

/-- The effect of one edge's three pushes on one node: the node with
the edge's source id gains the target ref on `outboundLinks` (and, for
a `"chains"` origin, on `chainedLinks`), and the node with the target
id gains the source ref on `inboundLinks`; ids never change, so the
sequential `push` calls of the source are these three independent
conditional appends. -/
def applyEdgeToNode (e : Edge) (toR fromR : LinkRef) (n : NodeInternal) :
    NodeInternal :=
  { n with
    outboundLinks :=
      if n.id = e.fromId then n.outboundLinks ++ [toR] else n.outboundLinks
    inboundLinks :=
      if n.id = e.toId then n.inboundLinks ++ [fromR] else n.inboundLinks
    chainedLinks :=
      if n.id = e.fromId ∧ e.origin = "chains"
      then n.chainedLinks ++ [toR] else n.chainedLinks }

/-- One iteration of `buildGraph`'s population loop: look up both
endpoint refs (skipping the edge if either is missing, as the source
does), then apply the pushes to every node. -/
def pushLinks (nodes : List NodeInternal) (e : Edge) : List NodeInternal :=
  match toRef nodes e.toId e.origin, toRef nodes e.fromId e.origin with
  | some toR, some fromR => nodes.map (applyEdgeToNode e toR fromR)
  | _, _ => nodes

/-- The population loop of `buildGraph` over the computed edges,
starting from the reset node list. -/
def populateLinks (nodes : List NodeInternal) (edges : List Edge) :
    List NodeInternal :=
  edges.foldl pushLinks (resetLinks nodes)

/-- The sort comparator at the end of `buildGraph` (collection first,
then slug), with `localeCompare` modelled as code-point string
comparison. -/
def nodeCmp (a b : NodeInternal) : Ordering :=
  if a.collection ≠ b.collection then compare a.collection b.collection
  else compare a.slug b.slug

/-- The final `[...nodesById.values()].sort(...)` of `buildGraph`
(`Array.prototype.sort` is stable, as is `mergeSort`). -/
def sortNodes (nodes : List NodeInternal) : List NodeInternal :=
  nodes.mergeSort (fun a b => (nodeCmp a b).isLE)

/-- `buildGraph` in `generate-content-map.mjs`, as the pair of its
sorted node list and the diagnostic accumulator (the alias-conflict and
orphan analyses, which only fill further health fields, are not
modelled). -/
def buildGraph (nodes : List NodeInternal) : List NodeInternal × ResolveState :=
  let idx := buildIndices nodes
  let st := resolveAllEdges idx nodes
  (sortNodes (populateLinks nodes st.edges), st)

/-- The outbound link array of the node with the given id (empty when
the id is absent). -/
def outboundOf (nodes : List NodeInternal) (i : String) : List LinkRef :=
  ((getNode nodes i).map (fun n => n.outboundLinks)).getD []

/-- The inbound link array of the node with the given id. -/
def inboundOf (nodes : List NodeInternal) (i : String) : List LinkRef :=
  ((getNode nodes i).map (fun n => n.inboundLinks)).getD []

/-- The chained link array of the node with the given id. -/
def chainedOf (nodes : List NodeInternal) (i : String) : List LinkRef :=
  ((getNode nodes i).map (fun n => n.chainedLinks)).getD []

/-- Number of entries of a link array that reference a given id. -/
def countRefs (rs : List LinkRef) (i : String) : Nat :=
  rs.countP (fun r => r.id = i)

end ContentCore

-- ===================================================================
-- Concrete sample data (used by closed statements)
-- ===================================================================

namespace ContentCore

/-- A serialized entry titled "Draft" (first in the node list). -/
def sampleDraft1 : Entry := ⟨"essays/draft-1", none, "draft-1", "essays", "Draft"⟩

/-- A second serialized entry also titled "Draft". -/
def sampleDraft2 : Entry := ⟨"notes/draft-2", none, "draft-2", "notes", "Draft"⟩

/-- The "Atlas" entry of the spec's scenarios. -/
def sampleAtlas : Entry := ⟨"essays/atlas", none, "atlas", "essays", "Atlas"⟩

/-- An entry whose id is a persisted token ("cuid"-style), so that its id
matches neither its title nor its slug. -/
def sampleToken : Entry := ⟨"xk9", some "xk9", "atlas-two", "essays", "Atlas Two"⟩

/-- A generator node whose stored slug contains a hyphen produced from a
disallowed character. -/
def sampleNodeZ : NodeInternal :=
  ⟨"notes/c-d", none, "c-d", "notes", "Zelda", "", [], [], [], [], [], [], "notes/c-d.md"⟩

/-- A generator node with body, chains and self mentions. -/
def sampleNodeA : NodeInternal :=
  ⟨"essays/a", none, "a", "essays", "Alpha", "", [], [],
    [⟨"Beta", "body"⟩, ⟨"Beta", "chains"⟩, ⟨"Gamma", "body"⟩, ⟨"Alpha", "body"⟩],
    [], [], [], "essays/a.md"⟩

/-- A generator node mentioning `sampleNodeA`. -/
def sampleNodeB : NodeInternal :=
  ⟨"notes/b", none, "b", "notes", "Beta", "", [], [],
    [⟨"Alpha", "body"⟩], [], [], [], "notes/b.md"⟩

/-- A later-discovered file mapping to `sampleNodeA`'s id. -/
def sampleNodeADup : NodeInternal :=
  ⟨"essays/a", none, "a", "essays", "Alpha Copy", "", [], [], [],
    [], [], [], "essays/a-copy.md"⟩

end ContentCore

-- ===================================================================
-- Lemmas about the normalizers
-- ===================================================================

namespace ContentCore

theorem toLower_of_allowed {c : Char} (h : isAllowedChar c = true) :
    c.toLower = c := by
  have h' : (('a' ≤ c ∧ c ≤ 'z') ∨ ('0' ≤ c ∧ c ≤ '9')) ∨ c = '-' := by
    simpa [isAllowedChar] using h
  have hcond : ¬ (65 ≤ c.toNat ∧ c.toNat ≤ 90) := by
    rcases h' with (⟨h1, _⟩ | ⟨_, h2⟩) | h3
    · have : 97 ≤ c.toNat := h1
      omega
    · have : c.toNat ≤ 57 := h2
      omega
    · subst h3
      decide
  simp only [Char.toLower]
  rw [if_neg ]
  simpa using hcond

theorem not_ws_of_allowed {c : Char} (h : isAllowedChar c = true) :
    c.isWhitespace = false := by
  cases hw : c.isWhitespace with
  | false => rfl
  | true =>
    have h4 : c = ' ' ∨ c = '\t' ∨ c = '\r' ∨ c = '\n' := by
      simp [Char.isWhitespace] at hw
      tauto
    rcases h4 with h4 | h4 | h4 | h4 <;> subst h4 <;> simp [isAllowedChar] at h

theorem collapseWsToHyphen_eq_self {l : List Char}
    (h : ∀ c ∈ l, c.isWhitespace = false) : collapseWsToHyphen l = l := by
  induction l using collapseWsToHyphen.induct with
  | case1 => rfl
  | case2 c hws =>
    have := h c (by simp)
    simp [this] at hws
  | case3 c hws =>
    have := h c (by simp)
    simp [collapseWsToHyphen, this]
  | case4 c c' cs hcond ih =>
    have hc := h c (by simp)
    simp [hc] at hcond
  | case5 c c' cs hcond ih =>
    have hc := h c (by simp)
    simp [collapseWsToHyphen, hc]
    exact ih (fun x hx => h x (by simp [hx]))

theorem collapseHyphens_head? (l : List Char) :
    (collapseHyphens l).head? = l.head? := by
  induction l using collapseHyphens.induct with
  | case1 => rfl
  | case2 c => rfl
  | case3 c c' cs hcond ih =>
    have hc : c = '-' ∧ c' = '-' := by simpa using hcond
    simp only [collapseHyphens, hcond, if_true, ih]
    simp [hc.1, hc.2]
  | case4 c c' cs hcond ih =>
    simp only [collapseHyphens, hcond, if_false]
    simp

theorem mem_collapseHyphens (l : List Char) :
    ∀ c, c ∈ collapseHyphens l → c ∈ l := by
  induction l using collapseHyphens.induct with
  | case1 => intro c h; simp [collapseHyphens] at h
  | case2 c' => intro c h; simp only [collapseHyphens] at h; exact h
  | case3 a a' cs hcond ih =>
    intro c h
    simp only [collapseHyphens, hcond, if_true] at h
    simpa using Or.inr (ih c h)
  | case4 a a' cs hcond ih =>
    intro c h
    have hcf : (a == '-' && a' == '-') = false := by simpa using hcond
    simp only [collapseHyphens, hcf, Bool.false_eq_true, if_false, List.mem_cons] at h
    rcases h with h | h
    · simp [h]
    · simpa using Or.inr (ih c h)

theorem collapseHyphens_chain' (l : List Char) :
    List.Chain' noTwoHyphens (collapseHyphens l) := by
  induction l using collapseHyphens.induct with
  | case1 => simp [collapseHyphens]
  | case2 c => simp [collapseHyphens]
  | case3 a a' cs hcond ih =>
    simpa only [collapseHyphens, hcond, if_true] using ih
  | case4 a a' cs hcond ih =>
    have hcf : (a == '-' && a' == '-') = false := by simpa using hcond
    simp only [collapseHyphens, hcf, Bool.false_eq_true, if_false]
    rw [List.chain'_cons']
    refine ⟨?_, ih⟩
    intro y hy
    rw [collapseHyphens_head?] at hy
    simp only [List.head?_cons, Option.mem_def, Option.some.injEq] at hy
    intro hcc
    rw [hy] at hcf
    rw [hcc.1, hcc.2] at hcf
    simp at hcf

theorem collapseHyphens_eq_self (l : List Char) :
    List.Chain' noTwoHyphens l → collapseHyphens l = l := by
  induction l using collapseHyphens.induct with
  | case1 => intro _; rfl
  | case2 c => intro _; rfl
  | case3 a a' cs hcond ih =>
    intro h
    have hc : a = '-' ∧ a' = '-' := by simpa using hcond
    rw [List.chain'_cons] at h
    exact absurd ⟨hc.1, hc.2⟩ h.1
  | case4 a a' cs hcond ih =>
    intro h
    rw [List.chain'_cons] at h
    have hcf : (a == '-' && a' == '-') = false := by simpa using hcond
    simp only [collapseHyphens, hcf, Bool.false_eq_true, if_false]
    rw [ih h.2]

theorem replaceDisallowed_allowed {c : Char} {l : List Char}
    (h : c ∈ replaceDisallowed l) : isAllowedChar c = true := by
  rw [replaceDisallowed, List.mem_map] at h
  obtain ⟨x, _, hx⟩ := h
  by_cases hax : isAllowedChar x = true
  · rw [if_pos hax] at hx
    rw [← hx]
    exact hax
  · rw [if_neg hax] at hx
    rw [← hx]
    decide

theorem replaceDisallowed_eq_self {l : List Char}
    (h : ∀ c ∈ l, isAllowedChar c = true) : replaceDisallowed l = l := by
  rw [replaceDisallowed]
  induction l with
  | nil => rfl
  | cons a as ih =>
    rw [List.map_cons, if_pos (h a (by simp)), ih (fun c hc => h c (by simp [hc]))]

theorem stripDisallowed_allowed {c : Char} {l : List Char}
    (h : c ∈ stripDisallowed l) : isAllowedChar c = true := by
  rw [stripDisallowed, List.mem_filter] at h
  exact h.2

theorem stripDisallowed_eq_self {l : List Char}
    (h : ∀ c ∈ l, isAllowedChar c = true) : stripDisallowed l = l := by
  rw [stripDisallowed, List.filter_eq_self]
  exact h

theorem mem_of_mem_tail' {α : Type} {a : α} {l : List α}
    (h : a ∈ l.tail) : a ∈ l := by
  cases l with
  | nil => simp at h
  | cons x xs => simp at h; simp [h]

theorem mem_of_mem_dropLast {α : Type} {a : α} {l : List α}
    (h : a ∈ l.dropLast) : a ∈ l := by
  induction l with
  | nil => simp at h
  | cons x xs ih =>
    cases xs with
    | nil => simp at h
    | cons y t =>
      rw [List.dropLast_cons₂, List.mem_cons] at h
      rcases h with h | h
      · simp [h]
      · simpa using Or.inr (ih h)

theorem mem_of_mem_dropWhile {α : Type} {p : α → Bool} {a : α} {l : List α}
    (h : a ∈ l.dropWhile p) : a ∈ l := by
  induction l with
  | nil => simp at h
  | cons x xs ih =>
    rw [List.dropWhile_cons] at h
    by_cases hp : p x = true
    · rw [if_pos hp] at h
      simpa using Or.inr (ih h)
    · rw [if_neg hp] at h
      exact h

theorem dropWhile_head_false {p : Char → Bool} {l : List Char} {c : Char}
    (h : (l.dropWhile p).head? = some c) : p c = false := by
  induction l with
  | nil => simp at h
  | cons x xs ih =>
    rw [List.dropWhile_cons] at h
    by_cases hp : p x = true
    · rw [if_pos hp] at h
      exact ih h
    · rw [if_neg hp] at h
      simp at h
      rw [← h]
      simpa using hp

theorem dropWhile_getLast? {p : Char → Bool} {l : List Char}
    (h : l.dropWhile p ≠ []) : (l.dropWhile p).getLast? = l.getLast? := by
  induction l with
  | nil => simp at h
  | cons x xs ih =>
    rw [List.dropWhile_cons]
    by_cases hp : p x = true
    · rw [List.dropWhile_cons, if_pos hp] at h
      rw [if_pos hp, ih h]
      cases xs with
      | nil => simp at h
      | cons y t => rw [List.getLast?_cons_cons]
    · rw [if_neg hp]

theorem dropWhile_eq_self {p : Char → Bool} {l : List Char}
    (h : ∀ c, l.head? = some c → p c = false) : l.dropWhile p = l := by
  cases l with
  | nil => rfl
  | cons x xs =>
    have := h x rfl
    rw [List.dropWhile_cons, if_neg (by simp [this])]

theorem chain'_dropWhile {R : Char → Char → Prop} {p : Char → Bool} {l : List Char}
    (h : List.Chain' R l) : List.Chain' R (l.dropWhile p) := by
  induction l with
  | nil => simp
  | cons x xs ih =>
    rw [List.dropWhile_cons]
    by_cases hp : p x = true
    · rw [if_pos hp]
      exact ih h.tail
    · rw [if_neg hp]
      exact h

theorem chain'_dropLast {R : Char → Char → Prop} {l : List Char}
    (h : List.Chain' R l) : List.Chain' R l.dropLast := by
  induction l with
  | nil => simp
  | cons x xs ih =>
    cases xs with
    | nil => simp
    | cons y t =>
      rw [List.dropLast_cons₂]
      rw [List.chain'_cons'] at h ⊢
      refine ⟨?_, ih h.2⟩
      intro z hz
      cases t with
      | nil => simp at hz
      | cons w t' =>
        rw [List.dropLast_cons₂] at hz
        simp at hz
        rw [← hz]
        exact h.1 y (by simp)

theorem noTwoHyphens_symm {a b : Char} (h : noTwoHyphens a b) : noTwoHyphens b a := by
  rw [noTwoHyphens] at h ⊢
  tauto

theorem chain'_reverse_noTwo {l : List Char}
    (h : List.Chain' noTwoHyphens l) : List.Chain' noTwoHyphens l.reverse := by
  rw [List.chain'_reverse]
  exact h.imp (fun a b hab => noTwoHyphens_symm hab)

theorem mem_dropAround {p : Char → Bool} {l : List Char} {c : Char}
    (h : c ∈ dropAround p l) : c ∈ l := by
  rw [dropAround, List.mem_reverse] at h
  have h1 := mem_of_mem_dropWhile h
  rw [List.mem_reverse] at h1
  exact mem_of_mem_dropWhile h1

theorem dropAround_head_false {p : Char → Bool} {l : List Char} {c : Char}
    (h : (dropAround p l).head? = some c) : p c = false := by
  rw [dropAround, List.head?_reverse] at h
  have hne : (l.dropWhile p).reverse.dropWhile p ≠ [] := by
    intro hnil
    rw [hnil] at h
    simp at h
  rw [dropWhile_getLast? hne, List.getLast?_reverse] at h
  exact dropWhile_head_false h

theorem dropAround_getLast_false {p : Char → Bool} {l : List Char} {c : Char}
    (h : (dropAround p l).getLast? = some c) : p c = false := by
  rw [dropAround, List.getLast?_reverse] at h
  exact dropWhile_head_false h

theorem dropAround_eq_self {p : Char → Bool} {l : List Char}
    (h1 : ∀ c, l.head? = some c → p c = false)
    (h2 : ∀ c, l.getLast? = some c → p c = false) : dropAround p l = l := by
  rw [dropAround, dropWhile_eq_self h1]
  rw [dropWhile_eq_self (fun c hc => h2 c (by rwa [List.head?_reverse] at hc))]
  exact List.reverse_reverse l

theorem chain'_dropAround {p : Char → Bool} {l : List Char}
    (h : List.Chain' noTwoHyphens l) :
    List.Chain' noTwoHyphens (dropAround p l) := by
  rw [dropAround]
  exact chain'_reverse_noTwo (chain'_dropWhile (chain'_reverse_noTwo (chain'_dropWhile h)))

theorem trimLeadHyphen_def (l : List Char) :
    trimLeadHyphen l = if l.head? = some '-' then l.tail else l := rfl

theorem trimOneHyphen_def (l : List Char) :
    trimOneHyphen l =
      if (trimLeadHyphen l).getLast? = some '-'
      then (trimLeadHyphen l).dropLast else trimLeadHyphen l := rfl

theorem mem_trimLeadHyphen {c : Char} {l : List Char}
    (h : c ∈ trimLeadHyphen l) : c ∈ l := by
  rw [trimLeadHyphen_def] at h
  split at h
  · exact mem_of_mem_tail' h
  · exact h

theorem mem_trimOneHyphen {c : Char} {l : List Char}
    (h : c ∈ trimOneHyphen l) : c ∈ l := by
  rw [trimOneHyphen_def] at h
  split at h
  · exact mem_trimLeadHyphen (mem_of_mem_dropLast h)
  · exact mem_trimLeadHyphen h

theorem chain'_trimLeadHyphen {R : Char → Char → Prop} {l : List Char}
    (h : List.Chain' R l) : List.Chain' R (trimLeadHyphen l) := by
  rw [trimLeadHyphen_def]
  split
  · exact h.tail
  · exact h

theorem chain'_trimOneHyphen {R : Char → Char → Prop} {l : List Char}
    (h : List.Chain' R l) : List.Chain' R (trimOneHyphen l) := by
  rw [trimOneHyphen_def]
  split
  · exact chain'_dropLast (chain'_trimLeadHyphen h)
  · exact chain'_trimLeadHyphen h

theorem getLast?_dropLast_noTwo {l : List Char}
    (h : List.Chain' noTwoHyphens l) (hl : l.getLast? = some '-') :
    l.dropLast.getLast? ≠ some '-' := by
  induction l with
  | nil => simp
  | cons x xs ih =>
    cases xs with
    | nil => simp
    | cons y t =>
      rw [List.getLast?_cons_cons] at hl
      rw [List.dropLast_cons₂]
      cases t with
      | nil =>
        simp only [List.dropLast_single]
        simp only [List.getLast?_singleton, ne_eq, Option.some.injEq]
        have hy : y = '-' := by simpa using hl
        have hxy : noTwoHyphens x y := (List.chain'_cons.mp h).1
        intro hx
        exact hxy ⟨hx, hy⟩
      | cons z t' =>
        have hne : (y :: z :: t').dropLast ≠ [] := by
          rw [List.dropLast_cons₂]
          simp
        have := ih (List.chain'_cons.mp h).2 hl
        cases hdl : (y :: z :: t').dropLast with
        | nil => exact absurd hdl hne
        | cons w t'' =>
          rw [List.getLast?_cons_cons]
          rw [hdl] at this
          exact this

theorem trimOneHyphen_boundary {l : List Char}
    (h : List.Chain' noTwoHyphens l) :
    (trimOneHyphen l).head? ≠ some '-' ∧ (trimOneHyphen l).getLast? ≠ some '-' := by
  have hlead : (trimLeadHyphen l).head? ≠ some '-' := by
    rw [trimLeadHyphen_def]
    split
    · next hh =>
      cases l with
      | nil => simp
      | cons x xs =>
        cases xs with
        | nil => simp
        | cons y t =>
          simp only [List.tail_cons, List.head?_cons, ne_eq, Option.some.injEq]
          have hx : x = '-' := by simpa using hh
          have hxy : noTwoHyphens x y := (List.chain'_cons.mp h).1
          intro hy
          exact hxy ⟨hx, hy⟩
    · next hh => exact hh
  have hchain1 : List.Chain' noTwoHyphens (trimLeadHyphen l) := chain'_trimLeadHyphen h
  rw [trimOneHyphen_def]
  split
  · next ht =>
    constructor
    · cases hl1 : trimLeadHyphen l with
      | nil => simp [hl1]
      | cons a as =>
        cases as with
        | nil =>
          rw [hl1] at ht hlead
          simp at ht hlead
          exact absurd ht hlead
        | cons b t =>
          rw [List.dropLast_cons₂]
          rw [hl1] at hlead
          simpa using hlead
    · exact getLast?_dropLast_noTwo hchain1 ht
  · next ht => exact ⟨hlead, ht⟩

theorem trimOneHyphen_eq_self {l : List Char}
    (h1 : l.head? ≠ some '-') (h2 : l.getLast? ≠ some '-') :
    trimOneHyphen l = l := by
  rw [trimOneHyphen_def, trimLeadHyphen_def, if_neg h1, if_neg h2]

theorem map_toLower_eq_self {l : List Char}
    (h : ∀ c ∈ l, isAllowedChar c = true) : l.map Char.toLower = l := by
  induction l with
  | nil => rfl
  | cons x xs ih =>
    rw [List.map_cons, toLower_of_allowed (h x (by simp)),
      ih (fun c hc => h c (by simp [hc]))]

theorem slugifyTitle_allowed {c : Char} {s : String}
    (h : c ∈ (slugifyTitle s).data) : isAllowedChar c = true :=
  replaceDisallowed_allowed (mem_collapseHyphens _ _ (mem_trimOneHyphen h))

theorem slugifyTitle_chain' (s : String) :
    List.Chain' noTwoHyphens (slugifyTitle s).data :=
  chain'_trimOneHyphen (collapseHyphens_chain' _)

theorem slugifyTitle_boundary (s : String) :
    (slugifyTitle s).data.head? ≠ some '-' ∧
    (slugifyTitle s).data.getLast? ≠ some '-' :=
  trimOneHyphen_boundary (collapseHyphens_chain' _)

theorem sanitizeSlug_allowed {c : Char} {s : String}
    (h : c ∈ (sanitizeSlug s).data) : isAllowedChar c = true :=
  stripDisallowed_allowed (mem_collapseHyphens _ _ (mem_dropAround h))

theorem sanitizeSlug_chain' (s : String) :
    List.Chain' noTwoHyphens (sanitizeSlug s).data :=
  chain'_dropAround (collapseHyphens_chain' _)

theorem sanitizeSlug_boundary (s : String) :
    (sanitizeSlug s).data.head? ≠ some '-' ∧
    (sanitizeSlug s).data.getLast? ≠ some '-' := by
  constructor
  · intro hh
    have := dropAround_head_false hh
    simp at this
  · intro hh
    have := dropAround_getLast_false hh
    simp at this

theorem slugifyTitle_idem (s : String) :
    slugifyTitle (slugifyTitle s) = slugifyTitle s := by
  have hallow : ∀ c ∈ (slugifyTitle s).data, isAllowedChar c = true :=
    fun c hc => slugifyTitle_allowed hc
  have hl : (lowerStr (slugifyTitle s)).data = (slugifyTitle s).data :=
    map_toLower_eq_self hallow
  show String.mk (trimOneHyphen (collapseHyphens (replaceDisallowed
      (collapseWsToHyphen (lowerStr (slugifyTitle s)).data)))) = slugifyTitle s
  rw [hl]
  rw [collapseWsToHyphen_eq_self (fun c hc => not_ws_of_allowed (hallow c hc))]
  rw [replaceDisallowed_eq_self hallow]
  rw [collapseHyphens_eq_self _ (slugifyTitle_chain' s)]
  rw [trimOneHyphen_eq_self (slugifyTitle_boundary s).1 (slugifyTitle_boundary s).2]

theorem sanitizeSlug_idem (s : String) :
    sanitizeSlug (sanitizeSlug s) = sanitizeSlug s := by
  have hallow : ∀ c ∈ (sanitizeSlug s).data, isAllowedChar c = true :=
    fun c hc => sanitizeSlug_allowed hc
  have hl : (lowerStr (sanitizeSlug s)).data = (sanitizeSlug s).data :=
    map_toLower_eq_self hallow
  show String.mk (dropAround (fun c => c == '-') (collapseHyphens (stripDisallowed
      (collapseWsToHyphen (lowerStr (sanitizeSlug s)).data)))) = sanitizeSlug s
  rw [hl]
  rw [collapseWsToHyphen_eq_self (fun c hc => not_ws_of_allowed (hallow c hc))]
  rw [stripDisallowed_eq_self hallow]
  rw [collapseHyphens_eq_self _ (sanitizeSlug_chain' s)]
  have hb1 : ∀ c, (sanitizeSlug s).data.head? = some c → (c == '-') = false := by
    intro c hc
    have hb := (sanitizeSlug_boundary s).1
    by_contra hcon
    simp at hcon
    rw [hcon] at hc
    exact hb hc
  have hb2 : ∀ c, (sanitizeSlug s).data.getLast? = some c → (c == '-') = false := by
    intro c hc
    have hb := (sanitizeSlug_boundary s).2
    by_contra hcon
    simp at hcon
    rw [hcon] at hc
    exact hb hc
  rw [dropAround_eq_self hb1 hb2]

-- ===================================================================
-- Lemmas about the inline transformer
-- ===================================================================

theorem jsTrim_idem (s : String) : jsTrim (jsTrim s) = jsTrim s := by
  show String.mk (dropAround (fun c => c.isWhitespace) (jsTrim s).data) = jsTrim s
  have h1 : ∀ c, (jsTrim s).data.head? = some c → c.isWhitespace = false :=
    fun c hc => dropAround_head_false hc
  have h2 : ∀ c, (jsTrim s).data.getLast? = some c → c.isWhitespace = false :=
    fun c hc => dropAround_getLast_false hc
  rw [dropAround_eq_self h1 h2]

theorem mapGetE_append (m1 m2 : List (String × Entry)) (k : String) :
    mapGetE (m1 ++ m2) k = (mapGetE m1 k).or (mapGetE m2 k) := by
  rw [mapGetE, List.find?_append]
  cases h1 : m1.find? (fun p => p.1 = k) <;> simp [mapGetE, h1]

theorem mapGetE_isNone_iff (m : List (String × Entry)) (k : String) :
    mapGetE m k = none ↔ (m.find? (fun p => p.1 = k)).isNone := by
  rw [mapGetE]
  cases m.find? (fun p => p.1 = k) <;> simp

theorem mapGetE_insertIfAbsent_same {m : List (String × Entry)} {k : String}
    {e : Entry} (hk : k ≠ "") (hnone : mapGetE m k = none) :
    mapGetE (insertIfAbsent m k e) k = some e := by
  rw [insertIfAbsent, if_pos ⟨hk, (mapGetE_isNone_iff m k).mp hnone⟩]
  rw [mapGetE_append, hnone]
  simp [mapGetE]

theorem mapGetE_insertIfAbsent_of_ne {m : List (String × Entry)} {k' : String}
    {e : Entry} {k : String} (hne : k ≠ k') :
    mapGetE (insertIfAbsent m k' e) k = mapGetE m k := by
  have hks : k' ≠ k := Ne.symm hne
  rw [insertIfAbsent]
  split
  · rw [mapGetE_append]
    have hsingle : mapGetE [(k', e)] k = none := by
      simp [mapGetE, hks]
    rw [hsingle]
    cases mapGetE m k <;> simp
  · rfl

theorem mapGetE_insertIfAbsent_of_some {m : List (String × Entry)} {k' : String}
    {e : Entry} {k : String} (hsome : mapGetE m k ≠ none) :
    mapGetE (insertIfAbsent m k' e) k = mapGetE m k := by
  rw [insertIfAbsent]
  split
  · rw [mapGetE_append]
    cases hv : mapGetE m k with
    | none => exact absurd hv hsome
    | some v => simp
  · rfl

theorem indexEntryStep_byTitle (idx : ContentIndex) (e : Entry) :
    (indexEntryStep idx e).byTitle =
      insertIfAbsent idx.byTitle (lowerStr (jsTrim e.title)) e := rfl

theorem indexEntryStep_bySlugKey (idx : ContentIndex) (e : Entry) :
    (indexEntryStep idx e).bySlugKey =
      insertIfAbsent idx.bySlugKey
        (sanitizeSlug (if e.slug = "" then e.id else e.slug)) e := rfl

theorem indexEntryStep_byIdKey (idx : ContentIndex) (e : Entry) :
    (indexEntryStep idx e).byIdKey =
      insertIfAbsent idx.byIdKey (sanitizeSlug e.id) e := rfl

theorem buildContentIndex_byTitle_aux (ns : List Entry) (k : String) (hk : k ≠ "") :
    ∀ idx : ContentIndex,
      mapGetE ((ns.foldl indexEntryStep idx).byTitle) k =
        (mapGetE idx.byTitle k).or
          (ns.find? (fun x => lowerStr (jsTrim x.title) = k)) := by
  induction ns with
  | nil => intro idx; simp
  | cons e es ih =>
    intro idx
    rw [List.foldl_cons, ih, indexEntryStep_byTitle]
    by_cases h1 : lowerStr (jsTrim e.title) = k
    · rw [h1]
      cases h2 : mapGetE idx.byTitle k with
      | none =>
        rw [mapGetE_insertIfAbsent_same hk h2]
        rw [List.find?_cons_of_pos _ (by simp [h1])]
        simp
      | some v =>
        rw [mapGetE_insertIfAbsent_of_some (by simp [h2])]
        rw [List.find?_cons_of_pos _ (by simp [h1]), h2]
        simp
    · rw [mapGetE_insertIfAbsent_of_ne (Ne.symm h1)]
      rw [List.find?_cons_of_neg _ (by simp [h1])]

theorem buildContentIndex_byTitle (ns : List Entry) (k : String) (hk : k ≠ "") :
    mapGetE (buildContentIndex ns).byTitle k =
      ns.find? (fun x => lowerStr (jsTrim x.title) = k) := by
  rw [buildContentIndex, buildContentIndex_byTitle_aux ns k hk]
  simp [mapGetE]

theorem buildContentIndex_bySlugKey_aux (ns : List Entry) (k : String) (hk : k ≠ "") :
    ∀ idx : ContentIndex,
      mapGetE ((ns.foldl indexEntryStep idx).bySlugKey) k =
        (mapGetE idx.bySlugKey k).or
          (ns.find? (fun x => sanitizeSlug (if x.slug = "" then x.id else x.slug) = k)) := by
  induction ns with
  | nil => intro idx; simp
  | cons e es ih =>
    intro idx
    rw [List.foldl_cons, ih, indexEntryStep_bySlugKey]
    by_cases h1 : sanitizeSlug (if e.slug = "" then e.id else e.slug) = k
    · rw [h1]
      cases h2 : mapGetE idx.bySlugKey k with
      | none =>
        rw [mapGetE_insertIfAbsent_same hk h2]
        rw [List.find?_cons_of_pos _ (by simp [h1])]
        simp
      | some v =>
        rw [mapGetE_insertIfAbsent_of_some (by simp [h2])]
        rw [List.find?_cons_of_pos _ (by simp [h1]), h2]
        simp
    · rw [mapGetE_insertIfAbsent_of_ne (Ne.symm h1)]
      rw [List.find?_cons_of_neg _ (by simp [h1])]

theorem buildContentIndex_bySlugKey (ns : List Entry) (k : String) (hk : k ≠ "") :
    mapGetE (buildContentIndex ns).bySlugKey k =
      ns.find? (fun x => sanitizeSlug (if x.slug = "" then x.id else x.slug) = k) := by
  rw [buildContentIndex, buildContentIndex_bySlugKey_aux ns k hk]
  simp [mapGetE]

theorem buildContentIndex_byIdKey_aux (ns : List Entry) (k : String) (hk : k ≠ "") :
    ∀ idx : ContentIndex,
      mapGetE ((ns.foldl indexEntryStep idx).byIdKey) k =
        (mapGetE idx.byIdKey k).or
          (ns.find? (fun x => sanitizeSlug x.id = k)) := by
  induction ns with
  | nil => intro idx; simp
  | cons e es ih =>
    intro idx
    rw [List.foldl_cons, ih, indexEntryStep_byIdKey]
    by_cases h1 : sanitizeSlug e.id = k
    · rw [h1]
      cases h2 : mapGetE idx.byIdKey k with
      | none =>
        rw [mapGetE_insertIfAbsent_same hk h2]
        rw [List.find?_cons_of_pos _ (by simp [h1])]
        simp
      | some v =>
        rw [mapGetE_insertIfAbsent_of_some (by simp [h2])]
        rw [List.find?_cons_of_pos _ (by simp [h1]), h2]
        simp
    · rw [mapGetE_insertIfAbsent_of_ne (Ne.symm h1)]
      rw [List.find?_cons_of_neg _ (by simp [h1])]

theorem buildContentIndex_byIdKey (ns : List Entry) (k : String) (hk : k ≠ "") :
    mapGetE (buildContentIndex ns).byIdKey k =
      ns.find? (fun x => sanitizeSlug x.id = k) := by
  rw [buildContentIndex, buildContentIndex_byIdKey_aux ns k hk]
  simp [mapGetE]

theorem resolveTitleToEntry_empty (idx : ContentIndex) :
    resolveTitleToEntry idx "" = none := by
  simp [resolveTitleToEntry]

theorem resolveTitleToEntry_of_title_hit {idx : ContentIndex} {t : String}
    {e : Entry} (ht : t ≠ "")
    (h : mapGetE idx.byTitle (lowerStr (jsTrim t)) = some e) :
    resolveTitleToEntry idx t = some e := by
  unfold resolveTitleToEntry
  rw [if_neg ht]
  dsimp only
  rw [h]

theorem resolveTitleToEntry_of_title_miss {idx : ContentIndex} {t : String}
    (ht : t ≠ "")
    (h : mapGetE idx.byTitle (lowerStr (jsTrim t)) = none) :
    resolveTitleToEntry idx t =
      (match mapGetE idx.bySlugKey (sanitizeSlug t) with
       | some e => some e
       | none => mapGetE idx.byIdKey (sanitizeSlug t)) := by
  unfold resolveTitleToEntry
  rw [if_neg ht]
  dsimp only
  rw [h]

theorem trimOrNone_eq_some {o : Option String} {a : String}
    (h : trimOrNone o = some a) : jsTrim a = a ∧ a ≠ "" := by
  cases o with
  | none => simp [trimOrNone] at h
  | some x =>
    by_cases hx : x = ""
    · simp [trimOrNone, hx] at h
    · by_cases hj : jsTrim x = ""
      · simp [trimOrNone, hx, hj] at h
      · simp only [trimOrNone, if_neg hx, if_neg hj, Option.some.injEq] at h
        subst h
        exact ⟨jsTrim_idem x, hj⟩

theorem parseWikiLinkBody_alias'_proj (inner : String) :
    (parseWikiLinkBody inner).alias' = trimOrNone (splitLimit2 '|' inner).2 := rfl

theorem parseWikiLinkBody_header_proj (inner : String) :
    (parseWikiLinkBody inner).header =
      trimOrNone (splitLimit2 '#' (splitLimit2 '|' inner).1).2 := rfl

theorem parseWikiLinkBody_title_proj (inner : String) :
    (parseWikiLinkBody inner).title =
      jsTrim (splitLimit2 '#' (splitLimit2 '|' inner).1).1 := rfl

theorem parseWikiLinkBody_alias_eq {inner a : String}
    (h : (parseWikiLinkBody inner).alias' = some a) : jsTrim a = a ∧ a ≠ "" := by
  rw [parseWikiLinkBody_alias'_proj] at h
  exact trimOrNone_eq_some h

theorem parseWikiLinkBody_header_eq {inner hd : String}
    (h : (parseWikiLinkBody inner).header = some hd) : jsTrim hd = hd ∧ hd ≠ "" := by
  rw [parseWikiLinkBody_header_proj] at h
  exact trimOrNone_eq_some h

theorem buildDisplayText_parsed (inner : String) :
    buildDisplayText (parseWikiLinkBody inner) =
      (parseWikiLinkBody inner).alias'.getD
        ((parseWikiLinkBody inner).header.getD (parseWikiLinkBody inner).title) := by
  have hNoAlias : buildDisplayTextNoAlias (parseWikiLinkBody inner) =
      (parseWikiLinkBody inner).header.getD (parseWikiLinkBody inner).title := by
    cases hH : (parseWikiLinkBody inner).header with
    | none =>
      unfold buildDisplayTextNoAlias
      rw [hH]
      rfl
    | some hd =>
      obtain ⟨htr, hne⟩ := parseWikiLinkBody_header_eq hH
      unfold buildDisplayTextNoAlias
      rw [hH]
      dsimp only
      rw [if_pos ⟨hne, by rw [htr]; exact hne⟩, htr]
      rfl
  cases hA : (parseWikiLinkBody inner).alias' with
  | none =>
    unfold buildDisplayText
    rw [hA]
    dsimp only
    rw [hNoAlias]
    rfl
  | some a =>
    obtain ⟨htr, hne⟩ := parseWikiLinkBody_alias_eq hA
    unfold buildDisplayText
    rw [hA]
    dsimp only
    rw [if_pos ⟨hne, by rw [htr]; exact hne⟩, htr]
    rfl

theorem buildUrlForEntry_parsed (entry : Entry) (inner : String) :
    buildUrlForEntry entry (parseWikiLinkBody inner).header =
      (match (parseWikiLinkBody inner).header with
       | none => "/" ++ entry.collection ++ "/" ++ entry.slug ++ "/"
       | some hd =>
         if slugifyHeading hd = ""
         then "/" ++ entry.collection ++ "/" ++ entry.slug ++ "/"
         else "/" ++ entry.collection ++ "/" ++ entry.slug ++ "/" ++ "#" ++
           slugifyHeading hd) := by
  cases hH : (parseWikiLinkBody inner).header with
  | none => rfl
  | some hd =>
    obtain ⟨htr, hne⟩ := parseWikiLinkBody_header_eq hH
    unfold buildUrlForEntry
    dsimp only
    rw [if_neg hne]

theorem renderMention_eq_nav {idx : ContentIndex} {inner : String} {entry : Entry}
    (h : resolveTitleToEntry idx (parseWikiLinkBody inner).title = some entry) :
    renderMention idx inner =
      WikiOut.nav (buildUrlForEntry entry (parseWikiLinkBody inner).header)
        (buildDisplayText (parseWikiLinkBody inner)) := by
  have ht : (parseWikiLinkBody inner).title ≠ "" := by
    intro h0
    rw [h0, resolveTitleToEntry_empty] at h
    exact Option.noConfusion h
  unfold renderMention
  rw [if_neg ht, h]

theorem resolveWikiLinkTarget_slug_step (rawTitle : String) (idx : Indices)
    (h1 : mapGetIds idx.titleIndex rawTitle = none)
    (h2 : mapGetIds idx.titleIndex (lowerStr rawTitle) = none) :
    (resolveWikiLinkTarget rawTitle idx).1 =
      (match mapGetIds idx.slugIndex (slugifyTitle rawTitle) with
       | some (i :: rest) => if rest.isEmpty then some i else none
       | _ => none) := by
  unfold resolveWikiLinkTarget
  dsimp only
  rw [h1, h2]
  have hor : (none : Option (List String)).orElse
      (fun _ => (none : Option (List String))) = none := rfl
  rw [hor]
  cases hres : mapGetIds idx.slugIndex (slugifyTitle rawTitle) with
  | none => rfl
  | some is =>
    cases is with
    | nil => rfl
    | cons i rest =>
      by_cases hrest : rest.isEmpty = true
      · simp only [hrest, if_true]
      · simp only [hrest]
        rfl

-- ===================================================================
-- Lemmas about id registration (loadContentNodes)
-- ===================================================================

theorem registerNode_hit {acc : List NodeInternal × List Collision}
    {n ex : NodeInternal} (hg : getNode acc.1 n.id = some ex) :
    registerNode acc n = (acc.1, acc.2 ++ [⟨n.id, ex.filePath, n.filePath⟩]) := by
  unfold registerNode
  rw [hg]

theorem registerNode_miss {acc : List NodeInternal × List Collision}
    {n : NodeInternal} (hg : getNode acc.1 n.id = none) :
    registerNode acc n = (acc.1 ++ [n], acc.2) := by
  unfold registerNode
  rw [hg]

theorem getNode_append (l1 l2 : List NodeInternal) (i : String) :
    getNode (l1 ++ l2) i = (getNode l1 i).or (getNode l2 i) := by
  rw [getNode, getNode, getNode, List.find?_append]

theorem loadRegistry_getNode_aux (ns : List NodeInternal) :
    ∀ (acc : List NodeInternal × List Collision) (i : String),
      getNode (ns.foldl registerNode acc).1 i =
        (getNode acc.1 i).or (ns.find? (fun n => n.id = i)) := by
  induction ns with
  | nil =>
    intro acc i
    rw [List.foldl_nil]
    cases getNode acc.1 i <;> simp
  | cons n rest ih =>
    intro acc i
    rw [List.foldl_cons, ih]
    cases hg : getNode acc.1 n.id with
    | some ex =>
      rw [registerNode_hit hg]
      by_cases hni : n.id = i
      · rw [hni] at hg
        rw [hg]
        simp
      · rw [List.find?_cons_of_neg _ (by simp [hni])]
    | none =>
      rw [registerNode_miss hg]
      dsimp only
      rw [getNode_append]
      by_cases hni : n.id = i
      · have h1 : getNode [n] i = some n := by
          simp [getNode, List.find?, hni]
        rw [h1, List.find?_cons_of_pos _ (by simp [hni])]
        rw [hni] at hg
        rw [hg]
        simp
      · have h1 : getNode [n] i = none := by
          simp [getNode, List.find?, hni]
        rw [h1, List.find?_cons_of_neg _ (by simp [hni])]
        cases getNode acc.1 i <;> simp

theorem loadNodeRegistry_getNode (ns : List NodeInternal) (i : String) :
    getNode (loadNodeRegistry ns).1 i = ns.find? (fun n => n.id = i) := by
  rw [loadNodeRegistry, loadRegistry_getNode_aux]
  simp [getNode]

theorem registry_collisions_mono (ns : List NodeInternal) :
    ∀ (acc : List NodeInternal × List Collision) (c : Collision),
      c ∈ acc.2 → c ∈ (ns.foldl registerNode acc).2 := by
  induction ns with
  | nil => intro acc c hc; exact hc
  | cons n rest ih =>
    intro acc c hc
    rw [List.foldl_cons]
    apply ih
    cases hg : getNode acc.1 n.id with
    | some ex =>
      rw [registerNode_hit hg]
      simp [hc]
    | none =>
      rw [registerNode_miss hg]
      exact hc

theorem registry_ids_nodup (ns : List NodeInternal) :
    ∀ (acc : List NodeInternal × List Collision),
      (acc.1.map (fun n => n.id)).Nodup →
      ((ns.foldl registerNode acc).1.map (fun n => n.id)).Nodup := by
  induction ns with
  | nil => intro acc h; exact h
  | cons n rest ih =>
    intro acc h
    rw [List.foldl_cons]
    apply ih
    cases hg : getNode acc.1 n.id with
    | some ex => rw [registerNode_hit hg]; exact h
    | none =>
      rw [registerNode_miss hg]
      dsimp only
      rw [List.map_append, List.nodup_append]
      refine ⟨h, by simp, ?_⟩
      intro x hx
      simp only [List.map_cons, List.map_nil, List.mem_cons, List.not_mem_nil,
        or_false]
      intro hxn
      rw [List.mem_map] at hx
      obtain ⟨m, hm, hmx⟩ := hx
      rw [getNode, List.find?_eq_none] at hg
      exact hg m hm (by simp [hmx, hxn])

theorem getNode_mem {l : List NodeInternal} {i : String} {n : NodeInternal}
    (h : getNode l i = some n) : n ∈ l ∧ n.id = i := by
  rw [getNode] at h
  refine ⟨List.mem_of_find?_eq_some h, ?_⟩
  have := List.find?_some h
  simpa using this

theorem mem_id_unique {l : List NodeInternal}
    (hnd : (l.map (fun n => n.id)).Nodup) {a b : NodeInternal}
    (ha : a ∈ l) (hb : b ∈ l) (hid : a.id = b.id) : a = b := by
  induction l with
  | nil => simp at ha
  | cons x xs ih =>
    rw [List.map_cons, List.nodup_cons] at hnd
    rcases List.mem_cons.mp ha with ha' | ha' <;>
      rcases List.mem_cons.mp hb with hb' | hb'
    · rw [ha', hb']
    · exfalso
      apply hnd.1
      rw [List.mem_map]
      exact ⟨b, hb', by rw [← hid, ha']⟩
    · exfalso
      apply hnd.1
      rw [List.mem_map]
      exact ⟨a, ha', by rw [hid, hb']⟩
    · exact ih hnd.2 ha' hb'

-- ===================================================================
-- Lemmas about diagnostic deduplication (C5) and the edge list
-- ===================================================================

theorem edgeStep_warningTracker (fromId origin : String) (st : ResolveState)
    (r : Option String) :
    (edgeStep fromId origin st r).warningTracker = st.warningTracker := by
  cases r with
  | none => rfl
  | some toId =>
    unfold edgeStep
    split <;> try rfl
    split <;> rfl

theorem edgeStep_unresolved (fromId origin : String) (st : ResolveState)
    (r : Option String) :
    (edgeStep fromId origin st r).unresolvedWikiLinks = st.unresolvedWikiLinks := by
  cases r with
  | none => rfl
  | some toId =>
    unfold edgeStep
    split <;> try rfl
    split <;> rfl

theorem warnStep_inv {st : ResolveState} (w : Option String)
    (hnd : st.unresolvedWikiLinks.Nodup)
    (hsub : ∀ m ∈ st.unresolvedWikiLinks, m ∈ st.warningTracker) :
    (warnStep st w).unresolvedWikiLinks.Nodup ∧
    ∀ m ∈ (warnStep st w).unresolvedWikiLinks, m ∈ (warnStep st w).warningTracker := by
  cases w with
  | none => exact ⟨hnd, hsub⟩
  | some msg =>
    unfold warnStep
    simp only []
    by_cases hmem : msg ∈ st.warningTracker
    · rw [if_pos hmem]
      exact ⟨hnd, hsub⟩
    · rw [if_neg hmem]
      constructor
      · dsimp only
        rw [List.nodup_append]
        refine ⟨hnd, by simp, ?_⟩
        intro x hx
        simp only [List.mem_cons, List.not_mem_nil, or_false]
        intro hxm
        rw [hxm] at hx
        exact hmem (hsub msg hx)
      · intro m hm
        dsimp only at hm ⊢
        rw [List.mem_append] at hm ⊢
        rcases hm with hm | hm
        · exact Or.inl (hsub m hm)
        · exact Or.inr hm

theorem resolveStep_inv {idx : Indices} {fromId : String} {st : ResolveState}
    {raw : RawLink}
    (hnd : st.unresolvedWikiLinks.Nodup)
    (hsub : ∀ m ∈ st.unresolvedWikiLinks, m ∈ st.warningTracker) :
    (resolveStep idx fromId st raw).unresolvedWikiLinks.Nodup ∧
    ∀ m ∈ (resolveStep idx fromId st raw).unresolvedWikiLinks,
      m ∈ (resolveStep idx fromId st raw).warningTracker := by
  unfold resolveStep
  dsimp only
  rw [edgeStep_unresolved, edgeStep_warningTracker]
  exact warnStep_inv _ hnd hsub

theorem foldl_preserve_inv {α : Type} (Inv : ResolveState → Prop)
    (f : ResolveState → α → ResolveState)
    (hf : ∀ s a, Inv s → Inv (f s a)) :
    ∀ (l : List α) (s : ResolveState), Inv s → Inv (l.foldl f s) := by
  intro l
  induction l with
  | nil => intro s hs; exact hs
  | cons a as ih =>
    intro s hs
    rw [List.foldl_cons]
    exact ih (f s a) (hf s a hs)

theorem resolveAllEdges_inv (idx : Indices) (nodes : List NodeInternal) :
    (resolveAllEdges idx nodes).unresolvedWikiLinks.Nodup ∧
    ∀ m ∈ (resolveAllEdges idx nodes).unresolvedWikiLinks,
      m ∈ (resolveAllEdges idx nodes).warningTracker := by
  rw [resolveAllEdges]
  apply foldl_preserve_inv
    (fun s => s.unresolvedWikiLinks.Nodup ∧
      ∀ m ∈ s.unresolvedWikiLinks, m ∈ s.warningTracker)
  · intro s node hs
    apply foldl_preserve_inv
      (fun s => s.unresolvedWikiLinks.Nodup ∧
        ∀ m ∈ s.unresolvedWikiLinks, m ∈ s.warningTracker)
    · intro s' raw hs'
      exact resolveStep_inv hs'.1 hs'.2
    · exact hs
  · exact ⟨List.nodup_nil, by simp⟩

theorem warnStep_edges (st : ResolveState) (w : Option String) :
    (warnStep st w).edges = st.edges := by
  cases w with
  | none => rfl
  | some msg =>
    unfold warnStep
    simp only []
    split <;> rfl

theorem edgeStep_edges (fromId origin : String) (st : ResolveState)
    (r : Option String) :
    (edgeStep fromId origin st r).edges =
      st.edges ++
        (match r with
         | some toId => if toId = fromId then [] else [⟨fromId, toId, origin⟩]
         | none => []) := by
  cases r with
  | none => simp [edgeStep]
  | some toId =>
    unfold edgeStep
    simp only []
    split
    · simp
    · rfl

theorem resolveStep_edges (idx : Indices) (fromId : String) (st : ResolveState)
    (raw : RawLink) :
    (resolveStep idx fromId st raw).edges = st.edges ++ edgeContrib idx fromId raw := by
  unfold resolveStep edgeContrib
  dsimp only
  rw [edgeStep_edges, warnStep_edges]

theorem foldl_resolveStep_edges (idx : Indices) (fromId : String)
    (raws : List RawLink) :
    ∀ st : ResolveState,
      (raws.foldl (resolveStep idx fromId) st).edges =
        st.edges ++ raws.flatMap (edgeContrib idx fromId) := by
  induction raws with
  | nil => intro st; simp
  | cons raw rest ih =>
    intro st
    rw [List.foldl_cons, ih, resolveStep_edges, List.flatMap_cons, List.append_assoc]

theorem resolveAllEdges_edges (idx : Indices) (nodes : List NodeInternal) :
    (resolveAllEdges idx nodes).edges =
      nodes.flatMap (fun node => node.rawLinks.flatMap (edgeContrib idx node.id)) := by
  rw [resolveAllEdges]
  have aux : ∀ (ns : List NodeInternal) (st : ResolveState),
      (ns.foldl (fun st node => node.rawLinks.foldl (resolveStep idx node.id) st) st).edges =
        st.edges ++ ns.flatMap (fun node => node.rawLinks.flatMap (edgeContrib idx node.id)) := by
    intro ns
    induction ns with
    | nil => intro st; simp
    | cons n rest ih =>
      intro st
      rw [List.foldl_cons, ih, foldl_resolveStep_edges, List.flatMap_cons,
        List.append_assoc]
  rw [aux]
  rfl

theorem mem_edgeContrib {idx : Indices} {fromId : String} {raw : RawLink}
    {e : Edge} (h : e ∈ edgeContrib idx fromId raw) :
    e.fromId = fromId ∧ e.origin = raw.origin ∧ e.toId ≠ e.fromId ∧
      (resolveWikiLinkTarget raw.targetTitle idx).1 = some e.toId := by
  unfold edgeContrib at h
  cases hres : (resolveWikiLinkTarget raw.targetTitle idx).1 with
  | none => rw [hres] at h; simp at h
  | some toId =>
    rw [hres] at h
    simp only [] at h
    by_cases ht : toId = fromId
    · rw [if_pos ht] at h
      simp at h
    · rw [if_neg ht] at h
      simp only [List.mem_cons, List.not_mem_nil, or_false] at h
      subst h
      exact ⟨rfl, rfl, by simpa using ht, by simp [hres]⟩

-- ===================================================================
-- The resolver only returns ids of indexed nodes
-- ===================================================================

theorem mapGetIds_append (m1 m2 : List (String × List String)) (k : String) :
    mapGetIds (m1 ++ m2) k = (mapGetIds m1 k).or (mapGetIds m2 k) := by
  rw [mapGetIds, List.find?_append]
  cases h1 : m1.find? (fun p => p.1 = k) <;> simp [mapGetIds, h1]

theorem mapGetIds_mapUpdate (m : List (String × List String)) (key id k : String) :
    mapGetIds (m.map (fun p =>
        if p.1 = key then (p.1, if id ∈ p.2 then p.2 else p.2 ++ [id]) else p)) k =
      (mapGetIds m k).map
        (fun is => if k = key then (if id ∈ is then is else is ++ [id]) else is) := by
  induction m with
  | nil => rfl
  | cons p ps ih =>
    by_cases hpk : p.1 = k
    · by_cases hpkey : p.1 = key
      · have hkk : k = key := by rw [← hpk, hpkey]
        simp [mapGetIds, List.find?_cons, hpk, hpkey, hkk]
      · have hkk : ¬ k = key := by rw [← hpk]; exact hpkey
        simp [mapGetIds, List.find?_cons, hpk, hpkey, hkk]
    · by_cases hpkey : p.1 = key
      · simp only [List.map_cons, if_pos hpkey]
        rw [mapGetIds, mapGetIds, List.find?_cons_of_neg _ (by simpa using hpk),
          List.find?_cons_of_neg _ (by simpa using hpk)]
        exact ih
      · simp only [List.map_cons, if_neg hpkey]
        rw [mapGetIds, mapGetIds, List.find?_cons_of_neg _ (by simpa using hpk),
          List.find?_cons_of_neg _ (by simpa using hpk)]
        exact ih

theorem mapGetIds_isSome_iff (m : List (String × List String)) (k : String) :
    (m.find? (fun p => p.1 = k)).isSome ↔ mapGetIds m k ≠ none := by
  rw [mapGetIds]
  cases m.find? (fun p => p.1 = k) <;> simp

theorem mapGetIds_addIdx (m : List (String × List String)) (key id k : String) :
    mapGetIds (addIdx m key id) k =
      if key = "" then mapGetIds m k
      else if k = key then
        (match mapGetIds m key with
         | some is => some (if id ∈ is then is else is ++ [id])
         | none => some [id])
      else mapGetIds m k := by
  unfold addIdx
  by_cases hkey : key = ""
  · rw [if_pos hkey, if_pos hkey]
  · rw [if_neg hkey, if_neg hkey]
    by_cases hfound : (m.find? (fun p => p.1 = key)).isSome
    · rw [if_pos hfound, mapGetIds_mapUpdate]
      by_cases hk : k = key
      · rw [if_pos hk]
        subst hk
        cases hg : mapGetIds m k with
        | none =>
          exact absurd ((mapGetIds_isSome_iff m k).mp hfound) (by simp [hg])
        | some is => simp
      · rw [if_neg hk]
        cases hg : mapGetIds m k <;> simp [hk]
    · rw [if_neg hfound, mapGetIds_append]
      by_cases hk : k = key
      · subst hk
        have hg : mapGetIds m k = none := by
          by_contra hcon
          exact hfound ((mapGetIds_isSome_iff m k).mpr hcon)
        rw [hg, if_pos rfl]
        simp [mapGetIds]
      · rw [if_neg hk]
        have hsingle : mapGetIds [(key, [id])] k = none := by
          simp [mapGetIds]
          exact fun h => hk h.symm
        rw [hsingle]
        cases mapGetIds m k <;> simp

theorem mem_mapGetIds_addIdx {m : List (String × List String)} {key id k i : String}
    {is : List String} (h : mapGetIds (addIdx m key id) k = some is)
    (hi : i ∈ is) :
    (∃ is0, mapGetIds m k = some is0 ∧ i ∈ is0) ∨ i = id := by
  rw [mapGetIds_addIdx] at h
  by_cases hkey : key = ""
  · rw [if_pos hkey] at h
    exact Or.inl ⟨is, h, hi⟩
  · rw [if_neg hkey] at h
    by_cases hk : k = key
    · rw [if_pos hk] at h
      cases hg : mapGetIds m key with
      | none =>
        rw [hg] at h
        simp only [Option.some.injEq] at h
        subst h
        simp at hi
        exact Or.inr hi
      | some is0 =>
        rw [hg] at h
        simp only [Option.some.injEq] at h
        subst h
        by_cases hid : id ∈ is0
        · rw [if_pos hid] at hi
          exact Or.inl ⟨is0, by rw [← hk] at hg; exact hg, hi⟩
        · rw [if_neg hid] at hi
          rw [List.mem_append] at hi
          rcases hi with hi | hi
          · exact Or.inl ⟨is0, by rw [← hk] at hg; exact hg, hi⟩
          · simp at hi
            exact Or.inr hi
    · rw [if_neg hk] at h
      exact Or.inl ⟨is, h, hi⟩

theorem indexNodeStep_titleIndex (idx : Indices) (node : NodeInternal) :
    (indexNodeStep idx node).titleIndex =
      addIdx (addIdx idx.titleIndex node.title node.id)
        (lowerStr node.title) node.id := rfl

theorem indexNodeStep_slugIndex (idx : Indices) (node : NodeInternal) :
    (indexNodeStep idx node).slugIndex =
      addIdx (addIdx idx.slugIndex (slugifyTitle node.title) node.id)
        (slugifyTitle node.slug) node.id := rfl

theorem buildIndices_ids_sub (nodes : List NodeInternal) :
    (∀ k is, mapGetIds (buildIndices nodes).titleIndex k = some is →
      ∀ i ∈ is, ∃ n ∈ nodes, n.id = i) ∧
    (∀ k is, mapGetIds (buildIndices nodes).slugIndex k = some is →
      ∀ i ∈ is, ∃ n ∈ nodes, n.id = i) := by
  rw [buildIndices]
  have aux : ∀ (ns : List NodeInternal) (idx : Indices),
      (∀ k is, mapGetIds idx.titleIndex k = some is →
        ∀ i ∈ is, ∃ n ∈ nodes, n.id = i) →
      (∀ k is, mapGetIds idx.slugIndex k = some is →
        ∀ i ∈ is, ∃ n ∈ nodes, n.id = i) →
      (∀ n ∈ ns, ∃ m ∈ nodes, m.id = n.id) →
      (∀ k is, mapGetIds (ns.foldl indexNodeStep idx).titleIndex k = some is →
        ∀ i ∈ is, ∃ n ∈ nodes, n.id = i) ∧
      (∀ k is, mapGetIds (ns.foldl indexNodeStep idx).slugIndex k = some is →
        ∀ i ∈ is, ∃ n ∈ nodes, n.id = i) := by
    intro ns
    induction ns with
    | nil => intro idx h1 h2 _; exact ⟨h1, h2⟩
    | cons n rest ih =>
      intro idx h1 h2 hmem
      rw [List.foldl_cons]
      apply ih
      · intro k is hk i hi
        rw [indexNodeStep_titleIndex] at hk
        rcases mem_mapGetIds_addIdx hk hi with ⟨is0, hk0, hi0⟩ | hieq
        · rcases mem_mapGetIds_addIdx hk0 hi0 with ⟨is1, hk1, hi1⟩ | hieq
          · exact h1 _ _ hk1 i hi1
          · rw [hieq]; exact hmem n (by simp)
        · rw [hieq]; exact hmem n (by simp)
      · intro k is hk i hi
        rw [indexNodeStep_slugIndex] at hk
        rcases mem_mapGetIds_addIdx hk hi with ⟨is0, hk0, hi0⟩ | hieq
        · rcases mem_mapGetIds_addIdx hk0 hi0 with ⟨is1, hk1, hi1⟩ | hieq
          · exact h2 _ _ hk1 i hi1
          · rw [hieq]; exact hmem n (by simp)
        · rw [hieq]; exact hmem n (by simp)
      · intro m hm
        exact hmem m (by simp [hm])
  apply aux nodes ⟨[], []⟩
  · intro k is hk
    simp [mapGetIds] at hk
  · intro k is hk
    simp [mapGetIds] at hk
  · intro n hn
    exact ⟨n, hn, rfl⟩

theorem resolveWikiLinkTarget_fst_mem (rawTitle : String) (idx : Indices)
    {toId : String} (h : (resolveWikiLinkTarget rawTitle idx).1 = some toId) :
    (∃ k is, mapGetIds idx.titleIndex k = some is ∧ toId ∈ is) ∨
    (∃ is, mapGetIds idx.slugIndex (slugifyTitle rawTitle) = some is ∧ toId ∈ is) := by
  unfold resolveWikiLinkTarget at h
  dsimp only at h
  cases hE : (mapGetIds idx.titleIndex rawTitle).orElse
      (fun _ => mapGetIds idx.titleIndex (lowerStr rawTitle)) with
  | some is =>
    have hor : mapGetIds idx.titleIndex rawTitle = some is ∨
        mapGetIds idx.titleIndex (lowerStr rawTitle) = some is := by
      cases h2 : mapGetIds idx.titleIndex rawTitle with
      | some v =>
        rw [h2] at hE
        have hred : (some v).orElse
            (fun _ => mapGetIds idx.titleIndex (lowerStr rawTitle)) = some v := rfl
        rw [hred] at hE
        exact Or.inl hE
      | none =>
        rw [h2] at hE
        have hred : (none : Option (List String)).orElse
            (fun _ => mapGetIds idx.titleIndex (lowerStr rawTitle)) =
              mapGetIds idx.titleIndex (lowerStr rawTitle) := rfl
        rw [hred] at hE
        exact Or.inr hE
    rw [hE] at h
    cases is with
    | nil =>
      simp only [] at h
      cases h3 : mapGetIds idx.slugIndex (slugifyTitle rawTitle) with
      | none =>
        rw [h3] at h
        simp at h
      | some is2 =>
        rw [h3] at h
        cases is2 with
        | nil => simp at h
        | cons i rest =>
          simp only [] at h
          by_cases hrest : rest.isEmpty = true
          · rw [if_pos hrest] at h
            simp only [Option.some.injEq] at h
            subst h
            exact Or.inr ⟨i :: rest, rfl, by simp⟩
          · rw [if_neg hrest] at h
            simp at h
    | cons i rest =>
      simp only [] at h
      by_cases hrest : rest.isEmpty = true
      · rw [if_pos hrest] at h
        simp only [Option.some.injEq] at h
        subst h
        rcases hor with hor | hor
        · exact Or.inl ⟨rawTitle, i :: rest, hor, by simp⟩
        · exact Or.inl ⟨lowerStr rawTitle, i :: rest, hor, by simp⟩
      · rw [if_neg hrest] at h
        simp at h
  | none =>
    rw [hE] at h
    simp only [] at h
    cases h3 : mapGetIds idx.slugIndex (slugifyTitle rawTitle) with
    | none =>
      rw [h3] at h
      simp at h
    | some is2 =>
      rw [h3] at h
      cases is2 with
      | nil => simp at h
      | cons i rest =>
        simp only [] at h
        by_cases hrest : rest.isEmpty = true
        · rw [if_pos hrest] at h
          simp only [Option.some.injEq] at h
          subst h
          exact Or.inr ⟨i :: rest, rfl, by simp⟩
        · rw [if_neg hrest] at h
          simp at h

theorem resolveWikiLinkTarget_mem_nodes {rawTitle : String}
    {nodes : List NodeInternal} {toId : String}
    (h : (resolveWikiLinkTarget rawTitle (buildIndices nodes)).1 = some toId) :
    ∃ n ∈ nodes, n.id = toId := by
  rcases resolveWikiLinkTarget_fst_mem rawTitle (buildIndices nodes) h with
    ⟨k, is, hk, hmem⟩ | ⟨is, hk, hmem⟩
  · exact (buildIndices_ids_sub nodes).1 k is hk toId hmem
  · exact (buildIndices_ids_sub nodes).2 _ is hk toId hmem

-- ===================================================================
-- Counting link-array entries produced by the population loop
-- ===================================================================

theorem getNode_map_id_preserving {f : NodeInternal → NodeInternal}
    (hf : ∀ n, (f n).id = n.id) (l : List NodeInternal) (i : String) :
    getNode (l.map f) i = (getNode l i).map f := by
  induction l with
  | nil => rfl
  | cons x xs ih =>
    rw [List.map_cons, getNode, List.find?_cons, getNode, List.find?_cons]
    by_cases hx : x.id = i
    · have h1 : decide ((f x).id = i) = true := by simp [hf x, hx]
      have h2 : decide (x.id = i) = true := by simp [hx]
      rw [h1, h2]
      rfl
    · have h1 : decide ((f x).id = i) = false := by simp [hf x, hx]
      have h2 : decide (x.id = i) = false := by simp [hx]
      rw [h1, h2]
      exact ih

theorem toRef_id {nodes : List NodeInternal} {i kind : String} {r : LinkRef}
    (h : toRef nodes i kind = some r) : r.id = i := by
  rw [toRef] at h
  cases hg : getNode nodes i with
  | none => rw [hg] at h; simp at h
  | some n =>
    rw [hg] at h
    simp only [Option.map_some', Option.some.injEq] at h
    rw [← h]
    exact (getNode_mem hg).2

theorem pushLinks_eq_map {nodes : List NodeInternal} {e : Edge}
    {toR fromR : LinkRef}
    (hT : toRef nodes e.toId e.origin = some toR)
    (hF : toRef nodes e.fromId e.origin = some fromR) :
    pushLinks nodes e = nodes.map (applyEdgeToNode e toR fromR) := by
  unfold pushLinks
  rw [hT, hF]

theorem applyEdgeToNode_id (e : Edge) (toR fromR : LinkRef) (n : NodeInternal) :
    (applyEdgeToNode e toR fromR n).id = n.id := rfl

theorem pushLinks_ids (nodes : List NodeInternal) (e : Edge) :
    (pushLinks nodes e).map (fun n => n.id) = nodes.map (fun n => n.id) := by
  unfold pushLinks
  cases hT : toRef nodes e.toId e.origin with
  | none => rfl
  | some toR =>
    cases hF : toRef nodes e.fromId e.origin with
    | none => rfl
    | some fromR =>
      rw [List.map_map]
      rfl

theorem getNode_isSome_iff (l : List NodeInternal) (i : String) :
    (getNode l i).isSome ↔ i ∈ l.map (fun n => n.id) := by
  rw [getNode, List.find?_isSome]
  simp [List.mem_map, eq_comm]

theorem countRefs_out_push {nodes : List NodeInternal} {e : Edge} (X Y : String)
    (hfrom : (getNode nodes e.fromId).isSome)
    (hto : (getNode nodes e.toId).isSome) :
    countRefs (outboundOf (pushLinks nodes e) X) Y =
      countRefs (outboundOf nodes X) Y +
        (if e.fromId = X ∧ e.toId = Y then 1 else 0) := by
  have hT : ∃ toR, toRef nodes e.toId e.origin = some toR := by
    rw [toRef]
    cases hg : getNode nodes e.toId with
    | none => rw [hg] at hto; simp at hto
    | some n => exact ⟨_, rfl⟩
  have hF : ∃ fromR, toRef nodes e.fromId e.origin = some fromR := by
    rw [toRef]
    cases hg : getNode nodes e.fromId with
    | none => rw [hg] at hfrom; simp at hfrom
    | some n => exact ⟨_, rfl⟩
  obtain ⟨toR, hT⟩ := hT
  obtain ⟨fromR, hF⟩ := hF
  have htoRid : toR.id = e.toId := toRef_id hT
  rw [outboundOf, pushLinks_eq_map hT hF,
    getNode_map_id_preserving (applyEdgeToNode_id e toR fromR)]
  cases hX : getNode nodes X with
  | none =>
    have hne : ¬(e.fromId = X ∧ e.toId = Y) := by
      rintro ⟨h1, _⟩
      rw [← h1] at hX
      rw [hX] at hfrom
      simp at hfrom
    rw [if_neg hne, outboundOf, hX]
    simp [countRefs]
  | some n =>
    rw [outboundOf, hX]
    have hnid : n.id = X := (getNode_mem hX).2
    have happ : (applyEdgeToNode e toR fromR n).outboundLinks =
        if n.id = e.fromId then n.outboundLinks ++ [toR] else n.outboundLinks := rfl
    simp only [Option.map_some', Option.getD_some, happ]
    by_cases h1 : e.fromId = X
    · rw [if_pos (by rw [hnid, h1])]
      rw [countRefs, countRefs, List.countP_append]
      by_cases h2 : e.toId = Y
      · rw [if_pos ⟨h1, h2⟩]
        simp [List.countP_cons, htoRid, h2]
      · rw [if_neg (by tauto)]
        simp [List.countP_cons, htoRid, h2]
    · rw [if_neg (by rw [hnid]; exact fun hc => h1 hc.symm)]
      rw [if_neg (by tauto)]
      omega

theorem countRefs_in_push {nodes : List NodeInternal} {e : Edge} (X Y : String)
    (hfrom : (getNode nodes e.fromId).isSome)
    (hto : (getNode nodes e.toId).isSome) :
    countRefs (inboundOf (pushLinks nodes e) X) Y =
      countRefs (inboundOf nodes X) Y +
        (if e.toId = X ∧ e.fromId = Y then 1 else 0) := by
  have hT : ∃ toR, toRef nodes e.toId e.origin = some toR := by
    rw [toRef]
    cases hg : getNode nodes e.toId with
    | none => rw [hg] at hto; simp at hto
    | some n => exact ⟨_, rfl⟩
  have hF : ∃ fromR, toRef nodes e.fromId e.origin = some fromR := by
    rw [toRef]
    cases hg : getNode nodes e.fromId with
    | none => rw [hg] at hfrom; simp at hfrom
    | some n => exact ⟨_, rfl⟩
  obtain ⟨toR, hT⟩ := hT
  obtain ⟨fromR, hF⟩ := hF
  have hfromRid : fromR.id = e.fromId := toRef_id hF
  rw [inboundOf, pushLinks_eq_map hT hF,
    getNode_map_id_preserving (applyEdgeToNode_id e toR fromR)]
  cases hX : getNode nodes X with
  | none =>
    have hne : ¬(e.toId = X ∧ e.fromId = Y) := by
      rintro ⟨h1, _⟩
      rw [← h1] at hX
      rw [hX] at hto
      simp at hto
    rw [if_neg hne, inboundOf, hX]
    simp [countRefs]
  | some n =>
    rw [inboundOf, hX]
    have hnid : n.id = X := (getNode_mem hX).2
    have happ : (applyEdgeToNode e toR fromR n).inboundLinks =
        if n.id = e.toId then n.inboundLinks ++ [fromR] else n.inboundLinks := rfl
    simp only [Option.map_some', Option.getD_some, happ]
    by_cases h1 : e.toId = X
    · rw [if_pos (by rw [hnid, h1])]
      rw [countRefs, countRefs, List.countP_append]
      by_cases h2 : e.fromId = Y
      · rw [if_pos ⟨h1, h2⟩]
        simp [List.countP_cons, hfromRid, h2]
      · rw [if_neg (by tauto)]
        simp [List.countP_cons, hfromRid, h2]
    · rw [if_neg (by rw [hnid]; exact fun hc => h1 hc.symm)]
      rw [if_neg (by tauto)]
      omega

theorem countRefs_chain_push {nodes : List NodeInternal} {e : Edge} (X Y : String)
    (hfrom : (getNode nodes e.fromId).isSome)
    (hto : (getNode nodes e.toId).isSome) :
    countRefs (chainedOf (pushLinks nodes e) X) Y =
      countRefs (chainedOf nodes X) Y +
        (if e.fromId = X ∧ e.toId = Y ∧ e.origin = "chains" then 1 else 0) := by
  have hT : ∃ toR, toRef nodes e.toId e.origin = some toR := by
    rw [toRef]
    cases hg : getNode nodes e.toId with
    | none => rw [hg] at hto; simp at hto
    | some n => exact ⟨_, rfl⟩
  have hF : ∃ fromR, toRef nodes e.fromId e.origin = some fromR := by
    rw [toRef]
    cases hg : getNode nodes e.fromId with
    | none => rw [hg] at hfrom; simp at hfrom
    | some n => exact ⟨_, rfl⟩
  obtain ⟨toR, hT⟩ := hT
  obtain ⟨fromR, hF⟩ := hF
  have htoRid : toR.id = e.toId := toRef_id hT
  rw [chainedOf, pushLinks_eq_map hT hF,
    getNode_map_id_preserving (applyEdgeToNode_id e toR fromR)]
  cases hX : getNode nodes X with
  | none =>
    have hne : ¬(e.fromId = X ∧ e.toId = Y ∧ e.origin = "chains") := by
      rintro ⟨h1, _⟩
      rw [← h1] at hX
      rw [hX] at hfrom
      simp at hfrom
    rw [if_neg hne, chainedOf, hX]
    simp [countRefs]
  | some n =>
    rw [chainedOf, hX]
    have hnid : n.id = X := (getNode_mem hX).2
    have happ : (applyEdgeToNode e toR fromR n).chainedLinks =
        if n.id = e.fromId ∧ e.origin = "chains"
        then n.chainedLinks ++ [toR] else n.chainedLinks := rfl
    simp only [Option.map_some', Option.getD_some, happ]
    by_cases h1 : e.fromId = X ∧ e.origin = "chains"
    · rw [if_pos (by rw [hnid, h1.1]; exact ⟨rfl, h1.2⟩)]
      rw [countRefs, countRefs, List.countP_append]
      by_cases h2 : e.toId = Y
      · rw [if_pos ⟨h1.1, h2, h1.2⟩]
        simp [List.countP_cons, htoRid, h2]
      · rw [if_neg (by tauto)]
        simp [List.countP_cons, htoRid, h2]
    · rw [if_neg (by
        rintro ⟨ha, hb⟩
        exact h1 ⟨by rw [← ha, hnid], hb⟩)]
      rw [if_neg (by tauto)]
      omega

theorem pushLinks_valid_transfer {nodes : List NodeInternal} {e0 : Edge}
    {j : String} (h : (getNode nodes j).isSome) :
    (getNode (pushLinks nodes e0) j).isSome := by
  rw [getNode_isSome_iff, pushLinks_ids, ← getNode_isSome_iff]
  exact h

theorem countRefs_out_foldl (X Y : String) (edges : List Edge) :
    ∀ nodes : List NodeInternal,
      (∀ e ∈ edges, (getNode nodes e.fromId).isSome ∧ (getNode nodes e.toId).isSome) →
      countRefs (outboundOf (edges.foldl pushLinks nodes) X) Y =
        countRefs (outboundOf nodes X) Y +
          edges.countP (fun e => e.fromId = X ∧ e.toId = Y) := by
  induction edges with
  | nil => intro nodes _; simp
  | cons e es ih =>
    intro nodes hval
    rw [List.foldl_cons]
    rw [ih (pushLinks nodes e)
      (fun e' he' => ⟨pushLinks_valid_transfer (hval e' (by simp [he'])).1,
        pushLinks_valid_transfer (hval e' (by simp [he'])).2⟩)]
    rw [countRefs_out_push X Y (hval e (by simp)).1 (hval e (by simp)).2,
      List.countP_cons]
    by_cases hc : e.fromId = X ∧ e.toId = Y
    · rw [if_pos hc, if_pos (by simpa using hc)]
      omega
    · rw [if_neg hc, if_neg (by simpa using hc)]
      omega

theorem countRefs_in_foldl (X Y : String) (edges : List Edge) :
    ∀ nodes : List NodeInternal,
      (∀ e ∈ edges, (getNode nodes e.fromId).isSome ∧ (getNode nodes e.toId).isSome) →
      countRefs (inboundOf (edges.foldl pushLinks nodes) X) Y =
        countRefs (inboundOf nodes X) Y +
          edges.countP (fun e => e.toId = X ∧ e.fromId = Y) := by
  induction edges with
  | nil => intro nodes _; simp
  | cons e es ih =>
    intro nodes hval
    rw [List.foldl_cons]
    rw [ih (pushLinks nodes e)
      (fun e' he' => ⟨pushLinks_valid_transfer (hval e' (by simp [he'])).1,
        pushLinks_valid_transfer (hval e' (by simp [he'])).2⟩)]
    rw [countRefs_in_push X Y (hval e (by simp)).1 (hval e (by simp)).2,
      List.countP_cons]
    by_cases hc : e.toId = X ∧ e.fromId = Y
    · rw [if_pos hc, if_pos (by simpa using hc)]
      omega
    · rw [if_neg hc, if_neg (by simpa using hc)]
      omega

theorem countRefs_chain_foldl (X Y : String) (edges : List Edge) :
    ∀ nodes : List NodeInternal,
      (∀ e ∈ edges, (getNode nodes e.fromId).isSome ∧ (getNode nodes e.toId).isSome) →
      countRefs (chainedOf (edges.foldl pushLinks nodes) X) Y =
        countRefs (chainedOf nodes X) Y +
          edges.countP (fun e => e.fromId = X ∧ e.toId = Y ∧ e.origin = "chains") := by
  induction edges with
  | nil => intro nodes _; simp
  | cons e es ih =>
    intro nodes hval
    rw [List.foldl_cons]
    rw [ih (pushLinks nodes e)
      (fun e' he' => ⟨pushLinks_valid_transfer (hval e' (by simp [he'])).1,
        pushLinks_valid_transfer (hval e' (by simp [he'])).2⟩)]
    rw [countRefs_chain_push X Y (hval e (by simp)).1 (hval e (by simp)).2,
      List.countP_cons]
    by_cases hc : e.fromId = X ∧ e.toId = Y ∧ e.origin = "chains"
    · rw [if_pos hc, if_pos (by simpa using hc)]
      omega
    · rw [if_neg hc, if_neg (by simpa using hc)]
      omega

theorem resetLinks_ids (nodes : List NodeInternal) :
    (resetLinks nodes).map (fun n => n.id) = nodes.map (fun n => n.id) := by
  rw [resetLinks, List.map_map]
  rfl

theorem outboundOf_resetLinks (nodes : List NodeInternal) (X : String) :
    outboundOf (resetLinks nodes) X = [] := by
  rw [outboundOf, resetLinks,
    @getNode_map_id_preserving
      (fun n => { n with outboundLinks := [], inboundLinks := [], chainedLinks := [] })
      (fun n => rfl) nodes X]
  cases getNode nodes X <;> rfl

theorem inboundOf_resetLinks (nodes : List NodeInternal) (X : String) :
    inboundOf (resetLinks nodes) X = [] := by
  rw [inboundOf, resetLinks,
    @getNode_map_id_preserving
      (fun n => { n with outboundLinks := [], inboundLinks := [], chainedLinks := [] })
      (fun n => rfl) nodes X]
  cases getNode nodes X <;> rfl

theorem chainedOf_resetLinks (nodes : List NodeInternal) (X : String) :
    chainedOf (resetLinks nodes) X = [] := by
  rw [chainedOf, resetLinks,
    @getNode_map_id_preserving
      (fun n => { n with outboundLinks := [], inboundLinks := [], chainedLinks := [] })
      (fun n => rfl) nodes X]
  cases getNode nodes X <;> rfl

theorem populateLinks_counts (nodes : List NodeInternal) (edges : List Edge)
    (X Y : String)
    (hval : ∀ e ∈ edges, (getNode nodes e.fromId).isSome ∧ (getNode nodes e.toId).isSome) :
    countRefs (outboundOf (populateLinks nodes edges) X) Y =
      edges.countP (fun e => e.fromId = X ∧ e.toId = Y) ∧
    countRefs (inboundOf (populateLinks nodes edges) X) Y =
      edges.countP (fun e => e.toId = X ∧ e.fromId = Y) ∧
    countRefs (chainedOf (populateLinks nodes edges) X) Y =
      edges.countP (fun e => e.fromId = X ∧ e.toId = Y ∧ e.origin = "chains") := by
  have hval' : ∀ e ∈ edges, (getNode (resetLinks nodes) e.fromId).isSome ∧
      (getNode (resetLinks nodes) e.toId).isSome := by
    intro e he
    constructor
    · rw [getNode_isSome_iff, resetLinks_ids, ← getNode_isSome_iff]
      exact (hval e he).1
    · rw [getNode_isSome_iff, resetLinks_ids, ← getNode_isSome_iff]
      exact (hval e he).2
  refine ⟨?_, ?_, ?_⟩
  · rw [populateLinks, countRefs_out_foldl X Y edges (resetLinks nodes) hval',
      outboundOf_resetLinks]
    simp [countRefs]
  · rw [populateLinks, countRefs_in_foldl X Y edges (resetLinks nodes) hval',
      inboundOf_resetLinks]
    simp [countRefs]
  · rw [populateLinks, countRefs_chain_foldl X Y edges (resetLinks nodes) hval',
      chainedOf_resetLinks]
    simp [countRefs]

theorem countP_edgeContrib_own (idx : Indices) (fromId Y : String)
    (hY : Y ≠ fromId) (po : String → Bool) (raws : List RawLink) :
    ((raws.flatMap (edgeContrib idx fromId)).countP
        (fun e => e.fromId = fromId ∧ e.toId = Y ∧ po e.origin)) =
      raws.countP (fun raw =>
        (resolveWikiLinkTarget raw.targetTitle idx).1 = some Y ∧ po raw.origin) := by
  induction raws with
  | nil => rfl
  | cons raw rest ih =>
    rw [List.flatMap_cons, List.countP_append, List.countP_cons, ih]
    have hsingle : (edgeContrib idx fromId raw).countP
        (fun e => e.fromId = fromId ∧ e.toId = Y ∧ po e.origin) =
        if ((resolveWikiLinkTarget raw.targetTitle idx).1 = some Y ∧ po raw.origin)
        then 1 else 0 := by
      unfold edgeContrib
      cases hres : (resolveWikiLinkTarget raw.targetTitle idx).1 with
      | none =>
        rw [if_neg (by simp)]
        rfl
      | some t =>
        simp only []
        by_cases htf : t = fromId
        · rw [if_pos htf]
          rw [if_neg (by
            rintro ⟨h1, _⟩
            simp only [Option.some.injEq] at h1
            exact hY (by rw [← h1, htf]))]
          rfl
        · rw [if_neg htf]
          by_cases hty : t = Y
          · by_cases hpo : po raw.origin = true
            · rw [if_pos (by simp [hty, hpo])]
              simp [List.countP_cons, htf, hty, hpo]
            · rw [if_neg (by simp [hpo])]
              simp [List.countP_cons, hpo]
          · rw [if_neg (by simp [hty])]
            simp [List.countP_cons, hty]
    rw [hsingle]
    simp only [decide_eq_true_eq]
    omega

theorem countP_edgeContrib_other (idx : Indices) (fromId X Y : String)
    (hne : fromId ≠ X) (po : String → Bool) (raws : List RawLink) :
    ((raws.flatMap (edgeContrib idx fromId)).countP
        (fun e => e.fromId = X ∧ e.toId = Y ∧ po e.origin)) = 0 := by
  rw [List.countP_eq_zero]
  intro e he
  rw [List.mem_flatMap] at he
  obtain ⟨raw, _, hraw⟩ := he
  have := mem_edgeContrib hraw
  simp only [Bool.not_eq_true, decide_eq_false_iff_not]
  rintro ⟨h1, _⟩
  exact hne (by rw [← this.1, h1])

theorem edges_countP (idx : Indices) (nodes : List NodeInternal)
    (hnd : (nodes.map (fun n => n.id)).Nodup) {A : NodeInternal} (hA : A ∈ nodes)
    (Y : String) (hY : Y ≠ A.id) (po : String → Bool) :
    ((nodes.flatMap (fun node => node.rawLinks.flatMap (edgeContrib idx node.id))).countP
        (fun e => e.fromId = A.id ∧ e.toId = Y ∧ po e.origin)) =
      A.rawLinks.countP (fun raw =>
        (resolveWikiLinkTarget raw.targetTitle idx).1 = some Y ∧ po raw.origin) := by
  induction nodes with
  | nil => simp at hA
  | cons n ns ih =>
    rw [List.map_cons, List.nodup_cons] at hnd
    rw [List.flatMap_cons, List.countP_append]
    rcases List.mem_cons.mp hA with hAeq | hAmem
    · rw [← hAeq]
      rw [countP_edgeContrib_own idx A.id Y hY po]
      have hzero : ((ns.flatMap (fun node => node.rawLinks.flatMap
          (edgeContrib idx node.id))).countP
          (fun e => e.fromId = A.id ∧ e.toId = Y ∧ po e.origin)) = 0 := by
        rw [List.countP_eq_zero]
        intro e he
        rw [List.mem_flatMap] at he
        obtain ⟨m, hm, he2⟩ := he
        rw [List.mem_flatMap] at he2
        obtain ⟨raw, _, hraw⟩ := he2
        have hfrom := (mem_edgeContrib hraw).1
        simp only [Bool.not_eq_true, decide_eq_false_iff_not]
        rintro ⟨h1, _⟩
        apply hnd.1
        rw [List.mem_map]
        refine ⟨m, hm, ?_⟩
        rw [← hfrom, h1, hAeq]
      rw [hzero]
      omega
    · have hne : n.id ≠ A.id := by
        intro hc
        apply hnd.1
        rw [List.mem_map]
        exact ⟨A, hAmem, hc.symm⟩
      rw [countP_edgeContrib_other idx n.id A.id Y hne po]
      rw [ih hnd.2 hAmem]
      omega

theorem getNode_perm {l l' : List NodeInternal} (hp : l.Perm l')
    (hnd : (l.map (fun n => n.id)).Nodup) (i : String) :
    getNode l i = getNode l' i := by
  cases hg : getNode l i with
  | some n =>
    obtain ⟨hmem, hid⟩ := getNode_mem hg
    have hmem' : n ∈ l' := hp.subset hmem
    have hsome : (getNode l' i).isSome := by
      rw [getNode, List.find?_isSome]
      exact ⟨n, hmem', by simp [hid]⟩
    cases hg' : getNode l' i with
    | none => rw [hg'] at hsome; simp at hsome
    | some m =>
      obtain ⟨hmem2, hid2⟩ := getNode_mem hg'
      have hmem2l : m ∈ l := hp.symm.subset hmem2
      rw [mem_id_unique hnd hmem2l hmem (by rw [hid2, hid])]
  | none =>
    cases hg' : getNode l' i with
    | none => rfl
    | some m =>
      obtain ⟨hmem2, hid2⟩ := getNode_mem hg'
      have hml : m ∈ l := hp.symm.subset hmem2
      rw [getNode, List.find?_eq_none] at hg
      exfalso
      exact (by simpa [hid2] using hg m hml)

theorem foldl_pushLinks_ids (edges : List Edge) :
    ∀ s : List NodeInternal,
      ((edges.foldl pushLinks s).map (fun n => n.id)) = s.map (fun n => n.id) := by
  induction edges with
  | nil => intro s; rfl
  | cons e es ih =>
    intro s
    rw [List.foldl_cons, ih, pushLinks_ids]

theorem populateLinks_ids (nodes : List NodeInternal) (edges : List Edge) :
    (populateLinks nodes edges).map (fun n => n.id) = nodes.map (fun n => n.id) := by
  rw [populateLinks, foldl_pushLinks_ids, resetLinks_ids]

theorem buildGraph_fst (nodes : List NodeInternal) :
    (buildGraph nodes).1 =
      sortNodes (populateLinks nodes
        (resolveAllEdges (buildIndices nodes) nodes).edges) := rfl

theorem buildGraph_snd (nodes : List NodeInternal) :
    (buildGraph nodes).2 = resolveAllEdges (buildIndices nodes) nodes := rfl

theorem resolveAllEdges_valid (nodes : List NodeInternal) :
    ∀ e ∈ (resolveAllEdges (buildIndices nodes) nodes).edges,
      (getNode nodes e.fromId).isSome ∧ (getNode nodes e.toId).isSome := by
  intro e he
  rw [resolveAllEdges_edges, List.mem_flatMap] at he
  obtain ⟨m, hm, he2⟩ := he
  rw [List.mem_flatMap] at he2
  obtain ⟨raw, _, hraw⟩ := he2
  have hc := mem_edgeContrib hraw
  constructor
  · rw [getNode_isSome_iff, hc.1, List.mem_map]
    exact ⟨m, hm, rfl⟩
  · obtain ⟨n2, hn2, hid⟩ := resolveWikiLinkTarget_mem_nodes hc.2.2.2
    rw [getNode_isSome_iff, List.mem_map]
    exact ⟨n2, hn2, hid⟩

theorem buildGraph_getNode (nodes : List NodeInternal)
    (hnd : (nodes.map (fun n => n.id)).Nodup) (i : String) :
    getNode (buildGraph nodes).1 i =
      getNode (populateLinks nodes
        (resolveAllEdges (buildIndices nodes) nodes).edges) i := by
  rw [buildGraph_fst]
  apply getNode_perm
  · exact List.mergeSort_perm _ _
  · rw [sortNodes]
    have hperm : ((populateLinks nodes
        (resolveAllEdges (buildIndices nodes) nodes).edges).mergeSort
          (fun a b => (nodeCmp a b).isLE)).map (fun n => n.id) |>.Perm
        ((populateLinks nodes
          (resolveAllEdges (buildIndices nodes) nodes).edges).map (fun n => n.id)) :=
      (List.mergeSort_perm _ _).map _
    rw [hperm.nodup_iff, populateLinks_ids]
    exact hnd

-- ===================================================================
-- Lemmas about the final sort (C9)
-- ===================================================================

theorem isLE_iff_ne_gt (o : Ordering) : (o.isLE = true) ↔ o ≠ Ordering.gt := by
  cases o <;> simp [Ordering.isLE]

theorem nodeCmp_isLE_iff (a b : NodeInternal) :
    ((nodeCmp a b).isLE = true) ↔
      (a.collection < b.collection ∨
        (a.collection = b.collection ∧ a.slug ≤ b.slug)) := by
  unfold nodeCmp
  by_cases hc : a.collection ≠ b.collection
  · rw [if_pos hc, isLE_iff_ne_gt, compare_le_iff_le]
    constructor
    · intro hle
      exact Or.inl (lt_of_le_of_ne hle hc)
    · rintro (hlt | ⟨heq, _⟩)
      · exact le_of_lt hlt
      · exact absurd heq hc
  · rw [if_neg hc, isLE_iff_ne_gt, compare_le_iff_le]
    rw [not_ne_iff] at hc
    constructor
    · intro hle
      exact Or.inr ⟨hc, hle⟩
    · rintro (hlt | ⟨_, hle⟩)
      · rw [hc] at hlt
        exact absurd hlt (lt_irrefl _)
      · exact hle

theorem nodeLE_trans (a b c : NodeInternal)
    (h1 : (nodeCmp a b).isLE = true) (h2 : (nodeCmp b c).isLE = true) :
    (nodeCmp a c).isLE = true := by
  rw [nodeCmp_isLE_iff] at h1 h2 ⊢
  rcases h1 with h1 | ⟨h1e, h1s⟩ <;> rcases h2 with h2 | ⟨h2e, h2s⟩
  · exact Or.inl (lt_trans h1 h2)
  · exact Or.inl (by rw [← h2e]; exact h1)
  · exact Or.inl (by rw [h1e]; exact h2)
  · exact Or.inr ⟨h1e.trans h2e, le_trans h1s h2s⟩

theorem nodeLE_total (a b : NodeInternal) :
    ((nodeCmp a b).isLE || (nodeCmp b a).isLE) = true := by
  rw [Bool.or_eq_true, nodeCmp_isLE_iff, nodeCmp_isLE_iff]
  rcases lt_trichotomy a.collection b.collection with h | h | h
  · exact Or.inl (Or.inl h)
  · rcases le_total a.slug b.slug with hs | hs
    · exact Or.inl (Or.inr ⟨h, hs⟩)
    · exact Or.inr (Or.inr ⟨h.symm, hs⟩)
  · exact Or.inr (Or.inl h)

theorem sortNodes_pairwise (nodes : List NodeInternal) :
    List.Pairwise (fun a b => (nodeCmp a b).isLE = true) (sortNodes nodes) := by
  rw [sortNodes]
  exact List.sorted_mergeSort nodeLE_trans nodeLE_total nodes

theorem nodeKey_antisymm {a b : NodeInternal}
    (h1 : (nodeCmp a b).isLE = true) (h2 : (nodeCmp b a).isLE = true) :
    a.collection = b.collection ∧ a.slug = b.slug := by
  rw [nodeCmp_isLE_iff] at h1 h2
  rcases h1 with h1 | ⟨h1e, h1s⟩ <;> rcases h2 with h2 | ⟨h2e, h2s⟩
  · exact absurd (lt_trans h1 h2) (lt_irrefl _)
  · exact absurd (h2e ▸ h1) (lt_irrefl _)
  · exact absurd (h1e ▸ h2) (lt_irrefl _)
  · exact ⟨h1e, le_antisymm h1s h2s⟩

theorem eq_of_perm_pairwise_keys :
    ∀ (l1 l2 : List NodeInternal), l1.Perm l2 →
      List.Pairwise (fun a b => (nodeCmp a b).isLE = true) l1 →
      List.Pairwise (fun a b => (nodeCmp a b).isLE = true) l2 →
      ((l1.map (fun n => (n.collection, n.slug))).Nodup) → l1 = l2 := by
  intro l1
  induction l1 with
  | nil =>
    intro l2 hp _ _ _
    exact hp.nil_eq
  | cons a t1 ih =>
    intro l2 hp hp1 hp2 hnd
    cases l2 with
    | nil =>
      have := hp.eq_nil
      simp at this
    | cons b t2 =>
      by_cases hab : a = b
      · subst hab
        rw [List.pairwise_cons] at hp1 hp2
        rw [List.map_cons, List.nodup_cons] at hnd
        rw [ih t2 hp.cons_inv hp1.2 hp2.2 hnd.2]
      · exfalso
        have ha2 : a ∈ t2 := by
          have := hp.subset (List.mem_cons_self a t1)
          rcases List.mem_cons.mp this with h | h
          · exact absurd h hab
          · exact h
        have hb1 : b ∈ t1 := by
          have := hp.symm.subset (List.mem_cons_self b t2)
          rcases List.mem_cons.mp this with h | h
          · exact absurd h.symm hab
          · exact h
        have hab1 : (nodeCmp a b).isLE = true :=
          (List.pairwise_cons.mp hp1).1 b hb1
        have hba : (nodeCmp b a).isLE = true :=
          (List.pairwise_cons.mp hp2).1 a ha2
        have hkeys := nodeKey_antisymm hab1 hba
        rw [List.map_cons, List.nodup_cons] at hnd
        apply hnd.1
        rw [List.mem_map]
        exact ⟨b, hb1, by rw [hkeys.1, hkeys.2]⟩

-- ===================================================================
-- Claim theorems
-- ===================================================================

/-- C8: both normalization functions are idempotent: for every string,
normalizing twice with the loader's hyphen-replacing `slugifyTitle`
or with the transformer's character-stripping `sanitizeSlug` yields
the same result as normalizing once. -/
theorem claim_C8_normalizers_idempotent (s : String) :
    slugifyTitle (slugifyTitle s) = slugifyTitle s ∧
    sanitizeSlug (sanitizeSlug s) = sanitizeSlug s :=
  ⟨slugifyTitle_idem s, sanitizeSlug_idem s⟩

/-- C5: within one run of the graph build, the unresolved/ambiguous
diagnostic list (`contentHealth.unresolvedWikiLinks`) contains each
exact message text at most once, no matter how many mentions trigger
it. -/
theorem claim_C5_diagnostics_deduplicated (nodes : List NodeInternal) :
    (buildGraph nodes).2.unresolvedWikiLinks.Nodup := by
  rw [buildGraph_snd]
  exact (resolveAllEdges_inv (buildIndices nodes) nodes).1

/-- C2 counterexample: the claim says the normalization used by the
build-time resolver removes characters outside `[a-z0-9-]` outright;
in fact `resolveWikiLinkTarget` slugifies with the hyphen-REPLACING
`slugifyTitle`: the mention `c.d` resolves against a node whose stored
slug is `c-d`, while the stripped key `cd` is not in the slug index at
all. -/
theorem claim_C2_counterexample :
    (resolveWikiLinkTarget "c.d" (buildIndices [sampleNodeZ])).1 = some "notes/c-d" ∧
    sanitizeSlug "c.d" = "cd" ∧
    slugifyTitle "c.d" = "c-d" ∧
    mapGetIds (buildIndices [sampleNodeZ]).slugIndex "cd" = none := by
  exact ⟨rfl, rfl, rfl, rfl⟩

/-- C2 amended: the two normalizations are asymmetric (`slugifyTitle`
replaces a character outside `[a-z0-9-]` with a hyphen, `sanitizeSlug`
removes it, e.g. on `a.b`), but the corpus loader AND the build-time
resolver both use the hyphen-replacing `slugifyTitle`; only the inline
transformer strips such characters via `sanitizeSlug`. -/
theorem claim_C2_amended :
    slugifyTitle "a.b" = "a-b" ∧ sanitizeSlug "a.b" = "ab" ∧
    (∀ (rawTitle : String) (idx : Indices),
      mapGetIds idx.titleIndex rawTitle = none →
      mapGetIds idx.titleIndex (lowerStr rawTitle) = none →
      (resolveWikiLinkTarget rawTitle idx).1 =
        (match mapGetIds idx.slugIndex (slugifyTitle rawTitle) with
         | some (i :: rest) => if rest.isEmpty then some i else none
         | _ => none)) ∧
    (∀ (idx : ContentIndex) (t : String), t ≠ "" →
      mapGetE idx.byTitle (lowerStr (jsTrim t)) = none →
      resolveTitleToEntry idx t =
        (match mapGetE idx.bySlugKey (sanitizeSlug t) with
         | some e => some e
         | none => mapGetE idx.byIdKey (sanitizeSlug t))) :=
  ⟨rfl, rfl, resolveWikiLinkTarget_slug_step,
    fun _ _ ht h => resolveTitleToEntry_of_title_miss ht h⟩

/-- Witness for the amended C2 at concrete inputs. -/
theorem claim_C2_amended_witness :
    (resolveWikiLinkTarget "x.y" (buildIndices [sampleNodeA])).1 =
      (match mapGetIds (buildIndices [sampleNodeA]).slugIndex (slugifyTitle "x.y") with
       | some (i :: rest) => if rest.isEmpty then some i else none
       | _ => none) ∧
    resolveTitleToEntry (buildContentIndex [sampleAtlas]) "At las" =
      (match mapGetE (buildContentIndex [sampleAtlas]).bySlugKey (sanitizeSlug "At las") with
       | some e => some e
       | none => mapGetE (buildContentIndex [sampleAtlas]).byIdKey (sanitizeSlug "At las")) :=
  ⟨claim_C2_amended.2.2.1 "x.y" (buildIndices [sampleNodeA]) rfl rfl,
    claim_C2_amended.2.2.2 (buildContentIndex [sampleAtlas]) "At las" (by decide) rfl⟩

/-- C1 counterexample: with two nodes both titled "Draft", the inline
transformer does NOT render the mention as unresolved/missing: it
resolves `[[Draft]]` to the first registered entry and emits a
navigable link to it. -/
theorem claim_C1_counterexample :
    resolveTitleToEntry (buildContentIndex [sampleDraft1, sampleDraft2]) "Draft" =
      some sampleDraft1 ∧
    renderMention (buildContentIndex [sampleDraft1, sampleDraft2]) "Draft" =
      WikiOut.nav "/essays/draft-1/" "Draft" ∧
    sampleDraft1 ≠ sampleDraft2 :=
  ⟨rfl, rfl, by decide⟩

/-- C1 amended: in the inline transformer, when a link title is claimed
by one or more nodes, resolution returns the FIRST entry of the
serialized node list whose trimmed lowercased title equals the
mention's trimmed lowercased title (first-entry-wins index), rather
than collapsing ambiguity to an unresolved link. -/
theorem claim_C1_amended (ns : List Entry) (t : String) (e : Entry)
    (hk : lowerStr (jsTrim t) ≠ "")
    (hfind : ns.find? (fun x => lowerStr (jsTrim x.title) = lowerStr (jsTrim t)) =
      some e) :
    resolveTitleToEntry (buildContentIndex ns) t = some e := by
  have ht : t ≠ "" := by
    intro h0
    rw [h0] at hk
    exact hk rfl
  apply resolveTitleToEntry_of_title_hit ht
  rw [buildContentIndex_byTitle ns _ hk]
  exact hfind

/-- Witness for the amended C1: the two-"Draft" scenario resolves to
the first entry. -/
theorem claim_C1_amended_witness :
    lowerStr (jsTrim "Draft") ≠ "" ∧
    [sampleDraft1, sampleDraft2].find?
        (fun x => lowerStr (jsTrim x.title) = lowerStr (jsTrim "Draft")) =
      some sampleDraft1 ∧
    resolveTitleToEntry (buildContentIndex [sampleDraft1, sampleDraft2]) "Draft" =
      some sampleDraft1 :=
  ⟨by decide, rfl,
    claim_C1_amended [sampleDraft1, sampleDraft2] "Draft" sampleDraft1 (by decide) rfl⟩

/-- C10: the transformer has a third resolution strategy: when the
exact lowercased-title lookup and the slugified-slug lookup both fail,
a mention whose sanitized text equals the sanitized id of some node
resolves to the first such node in the serialized list. -/
theorem claim_C10_id_fallback (ns : List Entry) (t : String) (e : Entry)
    (ht : t ≠ "")
    (h1 : mapGetE (buildContentIndex ns).byTitle (lowerStr (jsTrim t)) = none)
    (h2 : mapGetE (buildContentIndex ns).bySlugKey (sanitizeSlug t) = none)
    (hk : sanitizeSlug t ≠ "")
    (hfind : ns.find? (fun x => sanitizeSlug x.id = sanitizeSlug t) = some e) :
    resolveTitleToEntry (buildContentIndex ns) t = some e := by
  rw [resolveTitleToEntry_of_title_miss ht h1, h2]
  simp only []
  rw [buildContentIndex_byIdKey ns _ hk]
  exact hfind

/-- Witness for C10: a mention matching only a node's persisted-token
id resolves to that node. -/
theorem claim_C10_witness :
    ("XK9!" : String) ≠ "" ∧
    mapGetE (buildContentIndex [sampleToken]).byTitle (lowerStr (jsTrim "XK9!")) = none ∧
    mapGetE (buildContentIndex [sampleToken]).bySlugKey (sanitizeSlug "XK9!") = none ∧
    sanitizeSlug "XK9!" ≠ "" ∧
    [sampleToken].find? (fun x => sanitizeSlug x.id = sanitizeSlug "XK9!") =
      some sampleToken ∧
    resolveTitleToEntry (buildContentIndex [sampleToken]) "XK9!" = some sampleToken :=
  ⟨by decide, rfl, rfl, by decide, rfl,
    claim_C10_id_fallback [sampleToken] "XK9!" sampleToken (by decide) rfl rfl
      (by decide) rfl⟩

/-- C6: a resolved mention is rewritten into a navigating link whose
URL is `/collection/slug/` of the resolved entry plus a fragment equal
to the sanitized header when a header was given and its sanitization
is nonempty (an empty-after-sanitization fragment is omitted); the
display text is the alias if given, else the header if given, else the
parsed title. -/
theorem claim_C6_resolved_output (idx : ContentIndex) (inner : String)
    (entry : Entry)
    (h : resolveTitleToEntry idx (parseWikiLinkBody inner).title = some entry) :
    renderMention idx inner =
      WikiOut.nav
        (match (parseWikiLinkBody inner).header with
         | none => "/" ++ entry.collection ++ "/" ++ entry.slug ++ "/"
         | some hd =>
           if slugifyHeading hd = ""
           then "/" ++ entry.collection ++ "/" ++ entry.slug ++ "/"
           else "/" ++ entry.collection ++ "/" ++ entry.slug ++ "/" ++ "#" ++
             slugifyHeading hd)
        ((parseWikiLinkBody inner).alias'.getD
          ((parseWikiLinkBody inner).header.getD (parseWikiLinkBody inner).title)) := by
  rw [renderMention_eq_nav h, buildUrlForEntry_parsed, buildDisplayText_parsed]

/-- Witness for C6: the `[[Atlas#Origins|The Beginning]]` scenario. -/
theorem claim_C6_witness :
    resolveTitleToEntry (buildContentIndex [sampleAtlas])
        (parseWikiLinkBody "Atlas#Origins|The Beginning").title = some sampleAtlas ∧
    renderMention (buildContentIndex [sampleAtlas]) "Atlas#Origins|The Beginning" =
      WikiOut.nav "/essays/atlas/#origins" "The Beginning" := by
  refine ⟨rfl, ?_⟩
  rw [claim_C6_resolved_output (buildContentIndex [sampleAtlas])
    "Atlas#Origins|The Beginning" sampleAtlas rfl]
  rfl

theorem resolveAllEdges_countP_plain (nodes : List NodeInternal)
    (hnd : (nodes.map (fun n => n.id)).Nodup) {A : NodeInternal} (hA : A ∈ nodes)
    (Y : String) (hY : Y ≠ A.id) :
    ((resolveAllEdges (buildIndices nodes) nodes).edges.countP
        (fun e => e.fromId = A.id ∧ e.toId = Y)) =
      A.rawLinks.countP (fun raw =>
        (resolveWikiLinkTarget raw.targetTitle (buildIndices nodes)).1 = some Y) := by
  rw [resolveAllEdges_edges]
  have h := edges_countP (buildIndices nodes) nodes hnd hA Y hY (fun _ => true)
  have hl : (fun e : Edge =>
      decide (e.fromId = A.id ∧ e.toId = Y ∧ (fun _ : String => true) e.origin = true)) =
      (fun e : Edge => decide (e.fromId = A.id ∧ e.toId = Y)) := by
    funext e
    simp
  have hr : (fun raw : RawLink =>
      decide ((resolveWikiLinkTarget raw.targetTitle (buildIndices nodes)).1 = some Y ∧
        (fun _ : String => true) raw.origin = true)) =
      (fun raw : RawLink =>
        decide ((resolveWikiLinkTarget raw.targetTitle (buildIndices nodes)).1 = some Y)) := by
    funext raw
    simp
  rw [hl, hr] at h
  exact h

theorem resolveAllEdges_countP_chains (nodes : List NodeInternal)
    (hnd : (nodes.map (fun n => n.id)).Nodup) {A : NodeInternal} (hA : A ∈ nodes)
    (Y : String) (hY : Y ≠ A.id) :
    ((resolveAllEdges (buildIndices nodes) nodes).edges.countP
        (fun e => e.fromId = A.id ∧ e.toId = Y ∧ e.origin = "chains")) =
      A.rawLinks.countP (fun raw =>
        (resolveWikiLinkTarget raw.targetTitle (buildIndices nodes)).1 = some Y ∧
          raw.origin = "chains") := by
  rw [resolveAllEdges_edges]
  have h := edges_countP (buildIndices nodes) nodes hnd hA Y hY
    (fun o => decide (o = "chains"))
  have hl : (fun e : Edge =>
      decide (e.fromId = A.id ∧ e.toId = Y ∧
        (fun o : String => decide (o = "chains")) e.origin = true)) =
      (fun e : Edge => decide (e.fromId = A.id ∧ e.toId = Y ∧ e.origin = "chains")) := by
    funext e
    simp
  have hr : (fun raw : RawLink =>
      decide ((resolveWikiLinkTarget raw.targetTitle (buildIndices nodes)).1 = some Y ∧
        (fun o : String => decide (o = "chains")) raw.origin = true)) =
      (fun raw : RawLink =>
        decide ((resolveWikiLinkTarget raw.targetTitle (buildIndices nodes)).1 = some Y ∧
          raw.origin = "chains")) := by
    funext raw
    simp
  rw [hl, hr] at h
  exact h

theorem resolveAllEdges_no_self (nodes : List NodeInternal) :
    ∀ e ∈ (resolveAllEdges (buildIndices nodes) nodes).edges, e.toId ≠ e.fromId := by
  intro e he
  rw [resolveAllEdges_edges, List.mem_flatMap] at he
  obtain ⟨m, _, he2⟩ := he
  rw [List.mem_flatMap] at he2
  obtain ⟨raw, _, hraw⟩ := he2
  exact (mem_edgeContrib hraw).2.2.1

theorem buildGraph_outboundOf (nodes : List NodeInternal)
    (hnd : (nodes.map (fun n => n.id)).Nodup) (i : String) :
    outboundOf (buildGraph nodes).1 i =
      outboundOf (populateLinks nodes
        (resolveAllEdges (buildIndices nodes) nodes).edges) i := by
  rw [outboundOf, outboundOf, buildGraph_getNode nodes hnd]

theorem buildGraph_inboundOf (nodes : List NodeInternal)
    (hnd : (nodes.map (fun n => n.id)).Nodup) (i : String) :
    inboundOf (buildGraph nodes).1 i =
      inboundOf (populateLinks nodes
        (resolveAllEdges (buildIndices nodes) nodes).edges) i := by
  rw [inboundOf, inboundOf, buildGraph_getNode nodes hnd]

theorem buildGraph_chainedOf (nodes : List NodeInternal)
    (hnd : (nodes.map (fun n => n.id)).Nodup) (i : String) :
    chainedOf (buildGraph nodes).1 i =
      chainedOf (populateLinks nodes
        (resolveAllEdges (buildIndices nodes) nodes).edges) i := by
  rw [chainedOf, chainedOf, buildGraph_getNode nodes hnd]

/-- C3: after graph build, for distinct nodes A and B, the number of
outbound entries on A referencing B equals the number of A's mentions
resolving to B, the number of inbound entries on B referencing A
equals that same count, and the chained entries referencing the other
node on either side count exactly that node's own `"chains"`-origin
mentions (so a chains mention of A produces a chained entry on A only,
never on B). -/
theorem claim_C3_edge_symmetry (nodes : List NodeInternal)
    (hnd : (nodes.map (fun n => n.id)).Nodup)
    (A B : NodeInternal) (hA : A ∈ nodes) (hB : B ∈ nodes) (hne : A.id ≠ B.id) :
    countRefs (outboundOf (buildGraph nodes).1 A.id) B.id =
      A.rawLinks.countP (fun raw =>
        (resolveWikiLinkTarget raw.targetTitle (buildIndices nodes)).1 = some B.id) ∧
    countRefs (inboundOf (buildGraph nodes).1 B.id) A.id =
      A.rawLinks.countP (fun raw =>
        (resolveWikiLinkTarget raw.targetTitle (buildIndices nodes)).1 = some B.id) ∧
    countRefs (chainedOf (buildGraph nodes).1 A.id) B.id =
      A.rawLinks.countP (fun raw =>
        (resolveWikiLinkTarget raw.targetTitle (buildIndices nodes)).1 = some B.id ∧
          raw.origin = "chains") ∧
    countRefs (chainedOf (buildGraph nodes).1 B.id) A.id =
      B.rawLinks.countP (fun raw =>
        (resolveWikiLinkTarget raw.targetTitle (buildIndices nodes)).1 = some A.id ∧
          raw.origin = "chains") := by
  have hval := resolveAllEdges_valid nodes
  have hcAB := populateLinks_counts nodes
    (resolveAllEdges (buildIndices nodes) nodes).edges A.id B.id hval
  have hcBA := populateLinks_counts nodes
    (resolveAllEdges (buildIndices nodes) nodes).edges B.id A.id hval
  refine ⟨?_, ?_, ?_, ?_⟩
  · rw [buildGraph_outboundOf nodes hnd, hcAB.1]
    exact resolveAllEdges_countP_plain nodes hnd hA B.id (Ne.symm hne)
  · rw [buildGraph_inboundOf nodes hnd, hcBA.2.1]
    have hswap : (fun e : Edge => decide (e.toId = B.id ∧ e.fromId = A.id)) =
        (fun e : Edge => decide (e.fromId = A.id ∧ e.toId = B.id)) := by
      funext e
      exact decide_eq_decide.mpr (by tauto)
    rw [hswap]
    exact resolveAllEdges_countP_plain nodes hnd hA B.id (Ne.symm hne)
  · rw [buildGraph_chainedOf nodes hnd, hcAB.2.2]
    exact resolveAllEdges_countP_chains nodes hnd hA B.id (Ne.symm hne)
  · rw [buildGraph_chainedOf nodes hnd, hcBA.2.2]
    exact resolveAllEdges_countP_chains nodes hnd hB A.id hne

/-- Witness for C3 on a concrete two-node corpus. -/
theorem claim_C3_witness :
    (([sampleNodeA, sampleNodeB].map (fun n => n.id)).Nodup ∧
      sampleNodeA ∈ [sampleNodeA, sampleNodeB] ∧
      sampleNodeB ∈ [sampleNodeA, sampleNodeB] ∧
      sampleNodeA.id ≠ sampleNodeB.id) ∧
    countRefs (outboundOf (buildGraph [sampleNodeA, sampleNodeB]).1 sampleNodeA.id)
        sampleNodeB.id =
      sampleNodeA.rawLinks.countP (fun raw =>
        (resolveWikiLinkTarget raw.targetTitle
          (buildIndices [sampleNodeA, sampleNodeB])).1 = some sampleNodeB.id) := by
  refine ⟨⟨by decide, by simp, by simp, by decide⟩, ?_⟩
  exact (claim_C3_edge_symmetry [sampleNodeA, sampleNodeB] (by decide)
    sampleNodeA sampleNodeB (by simp) (by simp) (by decide)).1

/-- C7: a mention of a node resolving to the node itself produces no
edge: after graph build the node's own outbound, inbound and chained
arrays contain no entry referencing the node's own id. -/
theorem claim_C7_no_self_edges (nodes : List NodeInternal)
    (hnd : (nodes.map (fun n => n.id)).Nodup)
    (A : NodeInternal) (_hA : A ∈ nodes) :
    countRefs (outboundOf (buildGraph nodes).1 A.id) A.id = 0 ∧
    countRefs (inboundOf (buildGraph nodes).1 A.id) A.id = 0 ∧
    countRefs (chainedOf (buildGraph nodes).1 A.id) A.id = 0 := by
  have hval := resolveAllEdges_valid nodes
  have hc := populateLinks_counts nodes
    (resolveAllEdges (buildIndices nodes) nodes).edges A.id A.id hval
  have hzero1 : ((resolveAllEdges (buildIndices nodes) nodes).edges.countP
      (fun e => e.fromId = A.id ∧ e.toId = A.id)) = 0 := by
    rw [List.countP_eq_zero]
    intro e he
    have := resolveAllEdges_no_self nodes e he
    simp only [Bool.not_eq_true, decide_eq_false_iff_not]
    rintro ⟨h1, h2⟩
    exact this (by rw [h1, h2])
  have hzero2 : ((resolveAllEdges (buildIndices nodes) nodes).edges.countP
      (fun e => e.toId = A.id ∧ e.fromId = A.id)) = 0 := by
    rw [List.countP_eq_zero]
    intro e he
    have := resolveAllEdges_no_self nodes e he
    simp only [Bool.not_eq_true, decide_eq_false_iff_not]
    rintro ⟨h1, h2⟩
    exact this (by rw [h1, h2])
  have hzero3 : ((resolveAllEdges (buildIndices nodes) nodes).edges.countP
      (fun e => e.fromId = A.id ∧ e.toId = A.id ∧ e.origin = "chains")) = 0 := by
    rw [List.countP_eq_zero]
    intro e he
    have := resolveAllEdges_no_self nodes e he
    simp only [Bool.not_eq_true, decide_eq_false_iff_not]
    rintro ⟨h1, h2, _⟩
    exact this (by rw [h1, h2])
  refine ⟨?_, ?_, ?_⟩
  · rw [buildGraph_outboundOf nodes hnd, hc.1, hzero1]
  · rw [buildGraph_inboundOf nodes hnd, hc.2.1, hzero2]
  · rw [buildGraph_chainedOf nodes hnd, hc.2.2, hzero3]

/-- Witness for C7: `sampleNodeA` mentions its own title "Alpha" yet
gains no self-referencing entry. -/
theorem claim_C7_witness :
    (([sampleNodeA, sampleNodeB].map (fun n => n.id)).Nodup ∧
      sampleNodeA ∈ [sampleNodeA, sampleNodeB]) ∧
    countRefs (outboundOf (buildGraph [sampleNodeA, sampleNodeB]).1 sampleNodeA.id)
      sampleNodeA.id = 0 := by
  refine ⟨⟨by decide, by simp⟩, ?_⟩
  exact (claim_C7_no_self_edges [sampleNodeA, sampleNodeB] (by decide)
    sampleNodeA (by simp)).1

/-- C4: when a later file maps to an identifier already claimed by an
earlier file, the collision is recorded in `idCollisions` with both
file paths, and the node registry keeps only the earlier file's node
under that id (the later node is discarded). -/
theorem claim_C4_id_collision (pre post : List NodeInternal) (n e : NodeInternal)
    (hfind : pre.find? (fun m => m.id = n.id) = some e) :
    Collision.mk n.id e.filePath n.filePath ∈ (loadNodeRegistry (pre ++ n :: post)).2 ∧
    getNode (loadNodeRegistry (pre ++ n :: post)).1 n.id = some e ∧
    ∀ m ∈ (loadNodeRegistry (pre ++ n :: post)).1, m.id = n.id → m = e := by
  have hga : getNode (loadNodeRegistry pre).1 n.id = some e := by
    rw [loadNodeRegistry_getNode, hfind]
  have key : loadNodeRegistry (pre ++ n :: post) =
      post.foldl registerNode (registerNode (loadNodeRegistry pre) n) := by
    rw [loadNodeRegistry, List.foldl_append, List.foldl_cons]
    rfl
  have hg2 : getNode (loadNodeRegistry (pre ++ n :: post)).1 n.id = some e := by
    rw [loadNodeRegistry_getNode, List.find?_append, hfind]
    rfl
  refine ⟨?_, hg2, ?_⟩
  · rw [key]
    apply registry_collisions_mono
    rw [registerNode_hit hga]
    simp
  · intro m hm hmid
    have hnd : ((loadNodeRegistry (pre ++ n :: post)).1.map (fun x => x.id)).Nodup := by
      rw [loadNodeRegistry]
      exact registry_ids_nodup _ _ (by simp)
    obtain ⟨hmem, hid⟩ := getNode_mem hg2
    exact mem_id_unique hnd hm hmem (by rw [hmid, hid])

/-- Witness for C4: a duplicate of `sampleNodeA`'s id from a later file
is recorded and dropped. -/
theorem claim_C4_witness :
    [sampleNodeA].find? (fun m => m.id = sampleNodeADup.id) = some sampleNodeA ∧
    Collision.mk sampleNodeADup.id sampleNodeA.filePath sampleNodeADup.filePath ∈
      (loadNodeRegistry ([sampleNodeA] ++ sampleNodeADup :: [])).2 ∧
    getNode (loadNodeRegistry ([sampleNodeA] ++ sampleNodeADup :: [])).1
      sampleNodeADup.id = some sampleNodeA := by
  have h := claim_C4_id_collision [sampleNodeA] [] sampleNodeADup sampleNodeA rfl
  exact ⟨rfl, h.1, h.2.1⟩

/-- C9: the serialized node list is sorted with collection as the
primary key and slug as the secondary key (adjacent pairs are ordered
lexicographically), and the ordering is a function of the node set: any
two permutations of a node list with pairwise-distinct
(collection, slug) keys sort to the same list. -/
theorem claim_C9_sorted_deterministic :
    (∀ nodes : List NodeInternal,
      List.Chain' (fun a b =>
        a.collection < b.collection ∨
          (a.collection = b.collection ∧ a.slug ≤ b.slug)) (sortNodes nodes)) ∧
    (∀ nodes nodes' : List NodeInternal, nodes.Perm nodes' →
      ((nodes.map (fun n => (n.collection, n.slug))).Nodup) →
      sortNodes nodes = sortNodes nodes') := by
  constructor
  · intro nodes
    exact ((sortNodes_pairwise nodes).imp
      (fun h => (nodeCmp_isLE_iff _ _).mp h)).chain'
  · intro ns ns' hp hnd
    apply eq_of_perm_pairwise_keys
    · exact ((List.mergeSort_perm ns _).trans hp).trans
        (List.mergeSort_perm ns' _).symm
    · exact sortNodes_pairwise ns
    · exact sortNodes_pairwise ns'
    · have hperm : ((sortNodes ns).map (fun n => (n.collection, n.slug))).Perm
          (ns.map (fun n => (n.collection, n.slug))) :=
        (List.mergeSort_perm ns _).map _
      exact hperm.nodup_iff.mpr hnd

/-- Witness for C9: two orderings of the same two-node set sort to the
same list. -/
theorem claim_C9_witness :
    ([sampleNodeB, sampleNodeA].Perm [sampleNodeA, sampleNodeB] ∧
      (([sampleNodeB, sampleNodeA].map (fun n => (n.collection, n.slug))).Nodup)) ∧
    sortNodes [sampleNodeB, sampleNodeA] = sortNodes [sampleNodeA, sampleNodeB] := by
  refine ⟨⟨List.Perm.swap sampleNodeA sampleNodeB [], by decide⟩, ?_⟩
  exact claim_C9_sorted_deterministic.2 [sampleNodeB, sampleNodeA]
    [sampleNodeA, sampleNodeB] (List.Perm.swap sampleNodeA sampleNodeB [])
    (by decide)
